import Mathlib

/-! PresatSimul: Bloch-equation presaturation profiles (`presat.c`, `xmlvalues.c`)

A shallow embedding of the numerical core of `presat.c`, of the value list of
`xmlvalues.c` and of the reading part of `main`, and theorems about them.

Modelling conventions
* C `double` values are elements of an ordered field `α`; the theorems
  instantiate `α := ℝ`, i.e. arithmetic is exact (no rounding, no NaN/inf).
* C `int` values that are parameters are `Int`; loop counters that start at 0
  and count upwards are `Nat`.  Integer arithmetic is not bounded; the conversion
  `(int)x` of a double is bounded to the 32-bit range (`ctrunc`).
* The functions of `math.h` and of the external library `libsimu1` are
  parameters of the embedding (`Libm`, `Libsimu1`); `realLibm` is the
  exact real-number `math.h`.
* `presat.c` works on one `data` record through a pointer; every C function
  `void f(pdata p, ...)` becomes a state transformer `data α → data α`.
* The block obtained from `calloc` in `prepom1xy` is the field `heap`;
  the pointers `om1x`, `om1y` are offsets into it.
-/

namespace Presat

/-! ## Data model -/

/-- Type `Vec3` of libsimu1 (`double[3]`): `x`, `y`, `z` are the entries `[0]`, `[1]`, `[2]`. -/
structure Vec3 (α : Type) where
  x : α
  y : α
  z : α
deriving DecidableEq, Repr

/-- Type `Mat33` of libsimu1 (`double[3][3]`), stored by rows. -/
structure Mat33 (α : Type) where
  r0 : Vec3 α
  r1 : Vec3 α
  r2 : Vec3 α
deriving DecidableEq, Repr

/-- The functions and constants of `math.h` used by `presat.c`. -/
structure Libm (α : Type) where
  exp : α → α
  cos : α → α
  sin : α → α
  hypot : α → α → α
  round : α → α
  toInt : α → Int
  pi : α

/-- The two functions of libsimu1 used by `presat.c`: `matrot(m, ax, angle)` stores in `m`
the matrix of the rotation by `angle` about `ax`; `matvec(m, u, v)` stores in `v` the
product of `m` and `u`. -/
structure Libsimu1 (α : Type) where
  matrot : Vec3 α → α → Mat33 α
  matvec : Mat33 α → Vec3 α → Vec3 α

/-- The `data` record of `presat.c`, field for field.  `shifts` is the table the pointer
`shifts` points to; `om1x` and `om1y` are pointers into `heap`. -/
structure data (α : Type) where
  T1 : α
  T2 : α
  R1 : α
  R2 : α
  d1 : α
  bigpulse : α
  onepulse : α
  npulse : Int
  nsubstep : Int
  nu0 : α
  nu0min : α
  nu0max : α
  dnu0 : α
  om0 : α
  dom0 : α
  nnu0 : Int
  nseq : Int
  nu1 : α
  mzeq : α
  m : Mat33 α
  ax : Vec3 α
  v1 : Vec3 α
  v2 : Vec3 α
  shifts : List α
  om1 : α
  nshift : Int
  om1x : Nat
  om1y : Nat
  tol : α
  heap : List α

/-- Counted loop `for (i = 0 ; i < n ; i++) s = body i s`. -/
def forLoop {σ : Type} (n : Nat) (body : Nat → σ → σ) (s : σ) : σ :=
  (List.range n).foldl (fun s i => body i s) s

/-- Read `ptr[i]` in the heap.  A read outside the allocated block is undefined in C; here
it gives 0. -/
def load {α : Type} [Zero α] (heap : List α) (ptr : Nat) (i : Nat) : α :=
  heap.getD (ptr + i) 0

/-- Write `ptr[i] = a` in the heap.  A write outside the allocated block is undefined in C;
here it changes nothing. -/
def store {α : Type} (heap : List α) (ptr : Nat) (i : Nat) (a : α) : List α :=
  heap.set (ptr + i) a

section Program

variable {α : Type} [LinearOrderedField α]

/-! ## The program -/

/-- Function `relax` of `presat.c`: relaxation of `p->v2` during `dt`, result in `p->v1`. -/
def relax (L : Libm α) (p : data α) (dt : α) : data α :=
  let f2 := L.exp (-p.R2 * dt)
  let mzeq := p.mzeq
  let p := { p with v1 := { p.v1 with x := p.v2.x * f2 } }
  let p := { p with v1 := { p.v1 with y := p.v2.y * f2 } }
  { p with v1 := { p.v1 with z := mzeq + (p.v2.z - mzeq) * L.exp (-p.R1 * dt) } }

/-- Function `step` of `presat.c`: evolution of `p->v1` during the elementary pulse `ipulse`. -/
def step (L : Libm α) (S : Libsimu1 α) (p : data α) (ipulse : Nat) : data α :=
  let om1x := load p.heap p.om1x ipulse
  let om1y := load p.heap p.om1y ipulse
  let omeff := L.hypot p.om0 (L.hypot om1x om1y)
  if omeff > p.tol then
    let nsubstep : Int := p.nsubstep
    let dt := p.onepulse / (nsubstep : α)
    let angle := omeff * dt
    let p := { p with ax := { p.ax with x := om1x / omeff } }
    let p := { p with ax := { p.ax with y := om1y / omeff } }
    let p := { p with ax := { p.ax with z := p.om0 / omeff } }
    let p := { p with m := S.matrot p.ax angle }
    forLoop nsubstep.toNat
      (fun _ p =>
        let p := { p with v2 := S.matvec p.m p.v1 }
        relax L p dt) p
  else
    let p := { p with v2 := { p.v2 with x := p.v1.x } }
    let p := { p with v2 := { p.v2 with y := p.v1.y } }
    let p := { p with v2 := { p.v2 with z := p.v1.z } }
    relax L p p.onepulse

/-- Function `onetraj` of `presat.c`: one trajectory from equilibrium, result in `p->v1`. -/
def onetraj (L : Libm α) (S : Libsimu1 α) (p : data α) : data α :=
  let p := { p with v1 := { p.v1 with x := 0 } }
  let p := { p with v1 := { p.v1 with y := 0 } }
  let p := { p with v1 := { p.v1 with z := p.mzeq } }
  forLoop p.nseq.toNat
    (fun _ p => forLoop p.npulse.toNat (fun ipulse p => step L S p ipulse) p) p

/-- The body of the loop of `alltraj`: the loop state is the record and the lines printed
so far, each line being the pair `(p->nu0, p->v1[2])`. -/
def alltrajBody (L : Libm α) (S : Libsimu1 α) (s : data α × List (α × α)) :
    data α × List (α × α) :=
  let p := onetraj L S s.1
  let out := s.2 ++ [(p.nu0, p.v1.z)]
  let p := { p with nu0 := p.nu0 + p.dnu0 }
  let p := { p with om0 := p.om0 + p.dom0 }
  (p, out)

/-- Function `alltraj` of `presat.c`: the loop `for (inu0 = 0 ; inu0 <= p->nnu0 ; inu0++)`.
The result is the final record and the list of printed lines, in printing order. -/
def alltraj (L : Libm α) (S : Libsimu1 α) (p : data α) : data α × List (α × α) :=
  forLoop (p.nnu0 + 1).toNat (fun _ s => alltrajBody L S s) (p, [])

/-- Function `prepom1xy` of `presat.c`.  The loop state of the inner loop is the pair
of the record and the running phase `phi`. -/
def prepom1xy (L : Libm α) (p : data α) : data α :=
  let npulse : Int := p.npulse
  let p : data α := { p with heap := List.replicate (2 * npulse).toNat 0, om1x := 0 }
  let p : data α := { p with om1y := p.om1x + npulse.toNat }
  let nshift : Int := p.nshift
  let om1 := p.om1 / (nshift : α)
  let p := forLoop nshift.toNat
    (fun ishift p =>
      let shift := p.shifts.getD ishift 0
      let dphi := 2 * L.pi * shift * p.onepulse
      (forLoop npulse.toNat
        (fun i (s : data α × α) =>
          let p := s.1
          let phi := s.2
          let p := { p with heap := store p.heap p.om1x i (load p.heap p.om1x i + L.cos phi) }
          let p := { p with heap := store p.heap p.om1y i (load p.heap p.om1y i + L.sin phi) }
          (p, phi + dphi)) (p, 0)).1) p
  forLoop (2 * npulse).toNat
    (fun i p => { p with heap := store p.heap p.om1x i (load p.heap p.om1x i * om1) }) p

/-- The "calculated parameters" section of `main` (after the input values are read). -/
def mainCalc (L : Libm α) (p : data α) : data α :=
  let p := { p with mzeq := 1 }
  let p := { p with tol := 1 / 100000 }
  let p := { p with R1 := 1 / p.T1 }
  let p := { p with R2 := 1 / p.T2 }
  let p := { p with nseq := L.toInt (L.round (p.d1 / p.bigpulse)) }
  let p := { p with onepulse := p.bigpulse / (p.npulse : α) }
  let p := { p with nu0 := p.nu0min }
  let p := { p with dnu0 := (p.nu0max - p.nu0min) / (p.nnu0 : α) }
  let p := { p with om0 := 2 * L.pi * p.nu0 }
  let p := { p with dom0 := 2 * L.pi * p.dnu0 }
  { p with om1 := 2 * L.pi * p.nu1 }

/-- The simulation part of `main`: calculated parameters, pulse shape, profile.
The result is the list of printed profile points. -/
def mainSim (L : Libm α) (S : Libsimu1 α) (p : data α) : List (α × α) :=
  let p := mainCalc L p
  let p := prepom1xy L p
  (alltraj L S p).2

/-- A record with every field zero or empty (a concrete starting point for examples). -/
def data.zero : data α :=
  { T1 := 0, T2 := 0, R1 := 0, R2 := 0, d1 := 0, bigpulse := 0, onepulse := 0,
    npulse := 0, nsubstep := 0, nu0 := 0, nu0min := 0, nu0max := 0, dnu0 := 0,
    om0 := 0, dom0 := 0, nnu0 := 0, nseq := 0, nu1 := 0, mzeq := 0,
    m := ⟨⟨0, 0, 0⟩, ⟨0, 0, 0⟩, ⟨0, 0, 0⟩⟩, ax := ⟨0, 0, 0⟩, v1 := ⟨0, 0, 0⟩,
    v2 := ⟨0, 0, 0⟩, shifts := [], om1 := 0, nshift := 0, om1x := 0, om1y := 0,
    tol := 0, heap := [] }

/-- Example record: one modulation at 0 Hz, one elementary pulse of 1 s, amplitude 1. -/
def exShape : data α :=
  { (data.zero : data α) with shifts := [0], nshift := 1, npulse := 1, onepulse := 1, om1 := 1 }

/-- Example input of `main`: `T1 = T2 = 1`, offsets from 0 to 10 Hz in 2 steps, one
modulation at 0 Hz, `d1 = 2`, `bigpulse = 1`, one elementary pulse, one substep, no RF
field. -/
def exInput : data α :=
  { (data.zero : data α) with
    T1 := 1, T2 := 1, nnu0 := 2, nu0min := 0, nu0max := 10, nshift := 1, shifts := [0],
    d1 := 2, bigpulse := 1, npulse := 1, nsubstep := 1, nu1 := 0 }

/-- Modelled from the spec: `matrot` and `matvec` of the external library libsimu1, whose
source is not part of `presat.c`.  `matrot` is Rodrigues' formula for the rotation by
`angle` about the unit vector `ax`; `matvec` is the matrix-vector product. -/
def rodrigues (L : Libm α) : Libsimu1 α :=
  { matrot := fun ax angle =>
      let c := L.cos angle
      let s := L.sin angle
      ⟨⟨c + ax.x * ax.x * (1 - c), ax.x * ax.y * (1 - c) - ax.z * s,
          ax.x * ax.z * (1 - c) + ax.y * s⟩,
        ⟨ax.y * ax.x * (1 - c) + ax.z * s, c + ax.y * ax.y * (1 - c),
          ax.y * ax.z * (1 - c) - ax.x * s⟩,
        ⟨ax.z * ax.x * (1 - c) - ax.y * s, ax.z * ax.y * (1 - c) + ax.x * s,
          c + ax.z * ax.z * (1 - c)⟩⟩
    matvec := fun m u =>
      ⟨m.r0.x * u.x + m.r0.y * u.y + m.r0.z * u.z,
        m.r1.x * u.x + m.r1.y * u.y + m.r1.z * u.z,
        m.r2.x * u.x + m.r2.y * u.y + m.r2.z * u.z⟩ }

end Program

/-! ## Exact real arithmetic -/

/-- C `round`: nearest integer, halfway cases away from zero. -/
noncomputable def cround (x : ℝ) : ℝ :=
  if 0 ≤ x then (⌊x + 1 / 2⌋ : ℝ) else (⌈x - 1 / 2⌉ : ℝ)

/-- C conversion `(int)x` of a double to a 32-bit `int`: truncation toward zero when the
result is in the range of `int`.  Outside that range C leaves the conversion undefined;
the value taken here is `INT_MIN`, the one the x86-64 conversion instruction gives. -/
noncomputable def ctrunc (x : ℝ) : Int :=
  let t : Int := if 0 ≤ x then ⌊x⌋ else ⌈x⌉
  if -2147483648 ≤ t ∧ t ≤ 2147483647 then t else -2147483648

/-- The functions of `math.h` over the real numbers. -/
noncomputable def realLibm : Libm ℝ :=
  { exp := Real.exp, cos := Real.cos, sin := Real.sin,
    hypot := fun x y => Real.sqrt (x ^ 2 + y ^ 2),
    round := cround, toInt := ctrunc, pi := Real.pi }

/-! ## Derived views of the program -/

section Views

variable {α : Type} [LinearOrderedField α]

/-- The vector `relax` leaves in `p->v1` when it is run with `p->v2 = v`. -/
def relaxV (L : Libm α) (p : data α) (v : Vec3 α) (dt : α) : Vec3 α :=
  (relax L { p with v2 := v } dt).v1

/-- The effective rotation frequency `omeff` computed by `step` for pulse `ipulse`. -/
def omeffOf (L : Libm α) (p : data α) (ipulse : Nat) : α :=
  L.hypot p.om0 (L.hypot (load p.heap p.om1x ipulse) (load p.heap p.om1y ipulse))

/-- The rotation axis `p->ax` computed by `step` for pulse `ipulse`. -/
def axisOf (L : Libm α) (p : data α) (ipulse : Nat) : Vec3 α :=
  ⟨load p.heap p.om1x ipulse / omeffOf L p ipulse,
   load p.heap p.om1y ipulse / omeffOf L p ipulse,
   p.om0 / omeffOf L p ipulse⟩

/-- The record with its scratch fields `m`, `ax`, `v1`, `v2` cleared: what is left are
the parameters of the simulation. -/
def data.params (p : data α) : data α :=
  { p with m := ⟨⟨0, 0, 0⟩, ⟨0, 0, 0⟩, ⟨0, 0, 0⟩⟩, ax := ⟨0, 0, 0⟩,
           v1 := ⟨0, 0, 0⟩, v2 := ⟨0, 0, 0⟩ }

/-- The record with, in addition, the current offset `nu0`, `om0` cleared: the parameters
shared by all the trajectories of a sweep. -/
def data.sweepParams (p : data α) : data α :=
  { p.params with nu0 := 0, om0 := 0 }

/-- The record at the start of iteration `k` of the loop of `alltraj`. -/
def sweepState (L : Libm α) (S : Libsimu1 α) (p : data α) (k : Nat) : data α :=
  (forLoop k (fun _ s => alltrajBody L S s) (p, [])).1

/-- The lines printed by the first `k` iterations of the loop of `alltraj`. -/
def sweepOut (L : Libm α) (S : Libsimu1 α) (p : data α) (k : Nat) : List (α × α) :=
  (forLoop k (fun _ s => alltrajBody L S s) (p, [])).2

/-- One substep of `step`: rotation by the matrix `m`, then relaxation during `dt`. -/
def substepV (L : Libm α) (S : Libsimu1 α) (p : data α) (m : Mat33 α) (dt : α)
    (v : Vec3 α) : Vec3 α :=
  relaxV L p (S.matvec m v) dt

/-- The body of the flattened pulse loop: pulse number `k` of the trajectory uses the
waveform entry `k mod npulse`. -/
def pulseAt (L : Libm α) (S : Libsimu1 α) (npulse : Nat) (k : Nat) (q : data α) : data α :=
  step L S q (k % npulse)

/-- The phase increment per elementary pulse of modulation number `k`. -/
def dphiOf (L : Libm α) (p : data α) (k : Nat) : α :=
  2 * L.pi * p.shifts.getD k 0 * p.onepulse

end Views

/-! ## Norms, amplitudes and further examples -/

section Measures

variable {α : Type} [LinearOrderedField α]

/-- The square of the Euclidean norm of a vector. -/
def Vec3.normSq (v : Vec3 α) : α :=
  v.x ^ 2 + v.y ^ 2 + v.z ^ 2

/-- What the spec requires of the rotation of libsimu1: the matrix built by `matrot` for
a unit axis, applied by `matvec`, keeps the norm of every vector. -/
def Libsimu1.isometric (S : Libsimu1 α) : Prop :=
  ∀ (ax : Vec3 α) (angle : α) (v : Vec3 α),
    ax.normSq = 1 → (S.matvec (S.matrot ax angle) v).normSq = v.normSq

/-- The conditions on a record under which relaxation and rotation keep the magnetization
inside the unit ball: `mzeq = 1`, rates with `0 <= R1 <= 2 * R2`, a tolerance
`tol >= 0`, and durations `onepulse >= 0`, `nsubstep >= 0`. -/
def boundedRegime (q : data α) : Prop :=
  q.mzeq = 1 ∧ 0 ≤ q.R1 ∧ q.R1 ≤ 2 * q.R2 ∧ 0 ≤ q.tol ∧ 0 ≤ q.onepulse ∧ 0 ≤ q.nsubstep

/-- Example input of `main`: no RF field, a single offset at 0 Hz. -/
def exNoField : data α :=
  { (data.zero : data α) with
    T1 := 1, T2 := 1, nnu0 := 0, nu0min := 0, nu0max := 0, nshift := 1, shifts := [0],
    d1 := 2, bigpulse := 1, npulse := 1, nsubstep := 1, nu1 := 0 }

/-- Example input of `main`: `T1 = T2 = 1`, one modulation at 0 Hz, `bigpulse = 1`, one
elementary pulse, one substep, and `nu1 = 1/2` Hz, so that each shaped pulse turns the
magnetization by `pi` about the x axis on resonance. -/
def exNutation : data α :=
  { (data.zero : data α) with
    T1 := 1, T2 := 1, nnu0 := 0, nu0min := 0, nu0max := 0, nshift := 1, shifts := [0],
    d1 := 1, bigpulse := 1, npulse := 1, nsubstep := 1, nu1 := 1 / 2 }

/-- Example input of `main`: `d1 = 10000000000` s and `bigpulse = 1` s, a quotient that
no 32-bit `int` holds. -/
def exLongDelay : data α :=
  { (data.zero : data α) with
    T1 := 1, T2 := 1, nnu0 := 0, nu0min := 0, nu0max := 0, nshift := 1, shifts := [0],
    d1 := 10000000000, bigpulse := 1, npulse := 1, nsubstep := 1, nu1 := 0 }

end Measures

/-- The root-mean-square combined amplitude of the waveform of a record:
`sqrt(mean over i of (om1x[i]^2 + om1y[i]^2))`. -/
noncomputable def rmsAmplitude (q : data ℝ) : ℝ :=
  Real.sqrt (((List.range q.npulse.toNat).map
    (fun i : Nat => (load q.heap q.om1x i) ^ 2 + (load q.heap q.om1y i) ^ 2)).sum
      / (q.npulse : ℝ))

/-! ## The list of values (`xmlvalues.c`) and the reading part of `main`

Conventions
* The values string built by `reader` is a `List Char`: the characters before the
  terminating end-of-string character; reading at the end of the list reads that
  terminator.  A `char *` into this block is `some k` (the address `values + k`), and
  `NULL` is `none`.
* The array of `char *` built by `splitvalues` is a list of such pointers; the caller's
  variable `valuesarray` is `none` (`NULL`) or `some` array.
* The `static int index` of `getvalue` is part of the state `XState`.
* `sscanf` of the C library is a parameter (`Libc`); `stdLibc` is a small instance.
-/

/-- The end-of-string character. -/
def NUL : Char := Char.ofNat 0

/-- The newline character. -/
def NL : Char := Char.ofNat 10

/-- The loop of `countvalues`: `count` is incremented at every newline before the end of
the string. -/
def countLoop : List Char → Int → Int
  | [], count => count
  | c :: rest, count =>
    if c = NUL then count
    else countLoop rest (if c = NL then count + 1 else count)

/-- Function `countvalues` of `xmlvalues.c`. -/
def countvalues (values : List Char) : Int :=
  countLoop values 0

/-- The result of `splitvalues`: the array of pointers and the values block, in which
newlines have been overwritten. -/
structure Split where
  pvalues : List (Option Nat)
  buf : List Char
deriving DecidableEq, Repr

/-- The loop `while((c = *p) && (i<count))` of `splitvalues`.  The arguments are the
characters from `p` on, the offsets `p` and `start`, the counter `i`, the array, and the
characters before `p` as they are now in memory. -/
def splitLoop (count : Int) :
    List Char → Nat → Nat → Int → List (Option Nat) → List Char → Split
  | [], _, _, _, pvalues, done => ⟨pvalues, done⟩
  | c :: rest, p, start, i, pvalues, done =>
    if c = NUL ∨ ¬ (i < count) then ⟨pvalues, done ++ c :: rest⟩
    else if c = NL then
      splitLoop count rest (p + 1) (p + 1) (i + 1) (pvalues.set i.toNat (some start))
        (done ++ [NUL])
    else
      splitLoop count rest (p + 1) start i pvalues (done ++ [c])

/-- Function `splitvalues` of `xmlvalues.c`.  The cells of the array obtained from
`malloc` hold the indeterminate pointer `junk` until they are written. -/
def splitvalues (junk : Option Nat) (values : List Char) (count : Int) : Split :=
  let pvalues := List.replicate (count + 2).toNat junk
  let pvalues := pvalues.set count.toNat none
  let pvalues := pvalues.set (count + 1).toNat (some 0)
  splitLoop count values 0 0 0 pvalues []

/-- The state of the value list: the values block, the caller's variable `valuesarray`
and the static `index` of `getvalue`. -/
structure XState where
  buf : List Char
  valuesarray : Option (List (Option Nat))
  index : Nat
deriving DecidableEq, Repr

/-- Function `getvaluesarray` of `xmlvalues.c`, applied to the string returned by
`reader`, at the start of the program (`index = 0`). -/
def getvaluesarray (junk : Option Nat) (values : List Char) : XState :=
  let nvalues := countvalues values
  let r := splitvalues junk values nvalues
  { buf := r.buf, valuesarray := some r.pvalues, index := 0 }

/-- The C string at offset `k` of the values block. -/
def cstr (buf : List Char) (k : Nat) : List Char :=
  (buf.drop k).takeWhile (fun c => c != NUL)

/-- Function `getvalue` of `xmlvalues.c`: the returned pointer and the new state.  When
the cell read is `NULL`, both blocks are freed and the caller's variable is set to
`NULL`.  A cell beyond the array reads as `NULL`. -/
def getvalue (s : XState) : Option Nat × XState :=
  match s.valuesarray with
  | none => (none, s)
  | some arr =>
    let value := arr.getD s.index none
    let s := { s with index := s.index + 1 }
    match value with
    | none => (none, { s with buf := [], valuesarray := none })
    | some k => (some k, s)

/-- The loop `while(value = getvalue(pvaluesarray))` of `freevaluesarray`, with a bound on
the number of calls. -/
def freeLoop : Nat → XState → XState
  | 0, s => s
  | n + 1, s =>
    match getvalue s with
    | (none, s') => s'
    | (some _, s') => freeLoop n s'

/-- Function `freevaluesarray` of `xmlvalues.c`.  The loop runs at most once per cell
left in the array, plus once. -/
def freevaluesarray (s : XState) : XState :=
  match s.valuesarray with
  | none => s
  | some arr => freeLoop (arr.length - s.index + 1) s

/-- The result of `sscanf` with one conversion: the return value `EOF` (end of input
before any conversion), `0` (matching failure) or `1` with the converted value. -/
inductive ScanResult (β : Type) where
  | eof : ScanResult β
  | nomatch : ScanResult β
  | ok (v : β) : ScanResult β
deriving DecidableEq, Repr

/-- The two uses of `sscanf` in `xmlvalues.c`: formats `"%d"` and `"%lf"`. -/
structure Libc (α : Type) where
  scanInt : List Char → ScanResult Int
  scanDouble : List Char → ScanResult α

/-- How a call ends: it returns a value, or the program is ended by `exit(status)`, or the
behaviour is undefined (`sscanf` on a `NULL` string).  The state of the value list is
kept in the first two cases. -/
inductive Outcome (β : Type) where
  | ret (v : β) (s : XState) : Outcome β
  | exit (status : Int) (s : XState) : Outcome β
  | undef : Outcome β

/-- Sequencing of two calls. -/
def Outcome.bind {β γ : Type} (o : Outcome β) (f : β → XState → Outcome γ) : Outcome γ :=
  match o with
  | .ret v s => f v s
  | .exit n s => .exit n s
  | .undef => .undef

section Reading

variable {α : Type} [LinearOrderedField α]

/-- Function `getdoublevalue` of `xmlvalues.c`.  `junk` is the indeterminate value of the
uninitialised local `d`, returned when `sscanf` returns neither 0 nor 1. -/
def getdoublevalue (C : Libc α) (junk : α) (s : XState) : Outcome α :=
  match getvalue s with
  | (none, _) => .undef
  | (some k, s) =>
    match C.scanDouble (cstr s.buf k) with
    | .nomatch => .exit 1 (freevaluesarray s)
    | .eof => .ret junk s
    | .ok d => .ret d s

/-- Function `getintvalue` of `xmlvalues.c`.  `junk` is the indeterminate value of the
uninitialised local `i`, returned when `sscanf` returns neither 0 nor 1. -/
def getintvalue (C : Libc α) (junk : Int) (s : XState) : Outcome Int :=
  match getvalue s with
  | (none, _) => .undef
  | (some k, s) =>
    match C.scanInt (cstr s.buf k) with
    | .nomatch => .exit 1 (freevaluesarray s)
    | .eof => .ret junk s
    | .ok i => .ret i s

/-- The loop of `main` that reads the `nshift` modulation frequencies, in order. -/
def readShifts (C : Libc α) (junk : α) : Nat → XState → Outcome (List α)
  | 0, s => .ret [] s
  | n + 1, s =>
    (getdoublevalue C junk s).bind fun x s =>
    (readShifts C junk n s).bind fun xs s => .ret (x :: xs) s

/-- The reading part of `main`: the version check and the input values, read in order
into the record `d`. -/
def mainRead (C : Libc α) (ji : Int) (jd : α) (d : data α) (s : XState) :
    Outcome (data α) :=
  (getintvalue C ji s).bind fun version s =>
  if version ≠ 2 then .exit 1 (freevaluesarray s)
  else
  (getdoublevalue C jd s).bind fun x s =>
  let p : data α := { d with T1 := x }
  (getdoublevalue C jd s).bind fun x s =>
  let p : data α := { p with T2 := x }
  (getintvalue C ji s).bind fun x s =>
  let p : data α := { p with nnu0 := x }
  (getdoublevalue C jd s).bind fun x s =>
  let p : data α := { p with nu0min := x }
  (getdoublevalue C jd s).bind fun x s =>
  let p : data α := { p with nu0max := x }
  (getintvalue C ji s).bind fun x s =>
  let p : data α := { p with nshift := x }
  (readShifts C jd p.nshift.toNat s).bind fun xs s =>
  let p : data α := { p with shifts := xs }
  (getdoublevalue C jd s).bind fun x s =>
  let p : data α := { p with d1 := x }
  (getdoublevalue C jd s).bind fun x s =>
  let p : data α := { p with bigpulse := x }
  (getintvalue C ji s).bind fun x s =>
  let p : data α := { p with npulse := x }
  (getintvalue C ji s).bind fun x s =>
  let p : data α := { p with nsubstep := x }
  (getdoublevalue C jd s).bind fun x s =>
  let p : data α := { p with nu1 := x }
  .ret p (freevaluesarray s)

/-- Function `main` of `presat.c`, from the string returned by `reader` on: the lines
printed on the standard output and the way the program ends (`ret 0` for `return 0`).
`d` is the uninitialised record, `jp`, `ji`, `jd` are indeterminate values. -/
def main (C : Libc α) (L : Libm α) (S : Libsimu1 α) (jp : Option Nat) (ji : Int) (jd : α)
    (d : data α) (values : List Char) : List (α × α) × Outcome Int :=
  match mainRead C ji jd d (getvaluesarray jp values) with
  | .ret p s => (mainSim L S p, .ret 0 s)
  | .exit n s => ([], .exit n s)
  | .undef => ([], .undef)

end Reading

/-! ### A small `sscanf` -/

/-- White space for `sscanf`: space, tab, newline, vertical tab, form feed, carriage
return. -/
def isspaceC (c : Char) : Bool :=
  c.toNat = 32 || (9 ≤ c.toNat && c.toNat ≤ 13)

/-- Decimal digit. -/
def isdigitC (c : Char) : Bool :=
  48 ≤ c.toNat && c.toNat ≤ 57

/-- The number written by a list of decimal digits. -/
def digitsVal (ds : List Char) : Nat :=
  ds.foldl (fun n c => 10 * n + (c.toNat - 48)) 0

/-- Modelled from the C standard: `sscanf(s, "%d", &i)` for decimal numbers.  White
space is skipped; if the input ends there the result is `EOF`; an optional sign and at
least one digit are converted; anything else is a matching failure. -/
def stdScanInt (s : List Char) : ScanResult Int :=
  match s.dropWhile isspaceC with
  | [] => .eof
  | c :: rest =>
    let neg : Bool := c.toNat = 45
    let body : List Char := if c.toNat = 45 ∨ c.toNat = 43 then rest else c :: rest
    match body.takeWhile isdigitC with
    | [] => .nomatch
    | ds => .ok (if neg then -(digitsVal ds : Int) else (digitsVal ds : Int))

/-- Modelled from the C standard: `sscanf(s, "%lf", &d)` for decimal numbers without
exponent: white space, optional sign, digits, optional point and digits. -/
def stdScanDouble {α : Type} [LinearOrderedField α] (s : List Char) : ScanResult α :=
  match s.dropWhile isspaceC with
  | [] => .eof
  | c :: rest =>
    let neg : Bool := c.toNat = 45
    let body : List Char := if c.toNat = 45 ∨ c.toNat = 43 then rest else c :: rest
    match body.takeWhile isdigitC with
    | [] => .nomatch
    | ds =>
      let tail : List Char := body.dropWhile isdigitC
      let frac : List Char :=
        match tail with
        | [] => []
        | t :: more => if t.toNat = 46 then more.takeWhile isdigitC else []
      let v : α := (digitsVal ds : α) + (digitsVal frac : α) / (10 : α) ^ frac.length
      .ok (if neg then -v else v)

/-- A small instance of the C library. -/
def stdLibc {α : Type} [LinearOrderedField α] : Libc α :=
  { scanInt := stdScanInt, scanDouble := stdScanDouble }

/-! ### Values as lists of strings -/

/-- The string `reader` builds from a list of values: each value followed by a newline. -/
def joinLines : List (List Char) → List Char
  | [] => []
  | v :: vs => v ++ NL :: joinLines vs

/-- The values block after `splitvalues`: each value followed by an end-of-string
character. -/
def joinNul : List (List Char) → List Char
  | [] => []
  | v :: vs => v ++ NUL :: joinNul vs

/-- The offsets of the values in the block, the first one being at offset `b`. -/
def offsets (b : Nat) : List (List Char) → List Nat
  | [] => []
  | v :: vs => b :: offsets (b + v.length + 1) vs

/-- A value without newline and without end-of-string character. -/
def cleanValue (v : List Char) : Prop :=
  ∀ c ∈ v, c ≠ NL ∧ c ≠ NUL

instance cleanValue.decidable (v : List Char) : Decidable (cleanValue v) := by
  unfold cleanValue
  infer_instance

/-- The values still to be read in state `s` are the strings `vs`: the cells of the array
from `index` on point to them, and are followed by `NULL` and by the address of the
block. -/
def Remaining (s : XState) (vs : List (List Char)) : Prop :=
  ∃ (arr : List (Option Nat)) (offs : List Nat), s.valuesarray = some arr
    ∧ arr.drop s.index = offs.map some ++ [none, some 0]
    ∧ offs.map (cstr s.buf) = vs

/-- The state after `k` calls of `getvalue`. -/
def afterCalls (s : XState) (k : Nat) : XState :=
  (fun t => (getvalue t).2)^[k] s

/-! ## Loops -/

theorem forLoop_zero {σ : Type} (body : Nat → σ → σ) (s : σ) : forLoop 0 body s = s := rfl

theorem forLoop_succ {σ : Type} (n : Nat) (body : Nat → σ → σ) (s : σ) :
    forLoop (n + 1) body s = body n (forLoop n body s) := by
  simp [forLoop, List.range_succ, List.foldl_append]

/-- An invariant that holds before a counted loop and is kept by the body holds after it. -/
theorem forLoop_invariant {σ : Type} (P : Nat → σ → Prop) (body : Nat → σ → σ) (s : σ)
    (n : Nat) (h0 : P 0 s) (hstep : ∀ i t, i < n → P i t → P (i + 1) (body i t)) :
    P n (forLoop n body s) := by
  induction n with
  | zero => simpa [forLoop_zero] using h0
  | succ k ih =>
    rw [forLoop_succ]
    exact hstep k _ (Nat.lt_succ_self k)
      (ih (fun i t hi hP => hstep i t (Nat.lt_succ_of_lt hi) hP))

theorem forLoop_add {σ : Type} (m n : Nat) (body : Nat → σ → σ) (s : σ) :
    forLoop (m + n) body s = forLoop n (fun i t => body (m + i) t) (forLoop m body s) := by
  induction n with
  | zero => rfl
  | succ k ih => rw [← Nat.add_assoc, forLoop_succ, forLoop_succ, ih]

theorem forLoop_congr {σ : Type} (n : Nat) (f g : Nat → σ → σ) (s : σ)
    (h : ∀ i t, i < n → f i t = g i t) : forLoop n f s = forLoop n g s := by
  induction n with
  | zero => rfl
  | succ k ih =>
    rw [forLoop_succ, forLoop_succ, ih (fun i t hi => h i t (Nat.lt_succ_of_lt hi)),
      h k _ (Nat.lt_succ_self k)]

/-- Two nested counted loops are one counted loop over the product of the bounds. -/
theorem forLoop_nested {σ : Type} (a b : Nat) (g : Nat → σ → σ) (s : σ) :
    forLoop a (fun _ t => forLoop b g t) s = forLoop (a * b) (fun k t => g (k % b) t) s := by
  induction a with
  | zero => simp [forLoop_zero]
  | succ k ih =>
    rw [forLoop_succ, ih, Nat.succ_mul, forLoop_add]
    apply forLoop_congr
    intro i t hi
    rw [Nat.add_comm, Nat.add_mul_mod_self_right, Nat.mod_eq_of_lt hi]

/-! ## Relaxation -/

section RelaxGeneric

variable {α : Type} [LinearOrderedField α]

theorem relax_eq (L : Libm α) (p : data α) (dt : α) :
    relax L p dt = { p with v1 := relaxV L p p.v2 dt } := by
  simp [relax, relaxV]

theorem relaxV_eq (L : Libm α) (p : data α) (v : Vec3 α) (dt : α) :
    relaxV L p v dt = ⟨v.x * L.exp (-p.R2 * dt), v.y * L.exp (-p.R2 * dt),
      p.mzeq + (v.z - p.mzeq) * L.exp (-p.R1 * dt)⟩ := by
  simp [relax, relaxV]

end RelaxGeneric

/-- C7. Thermal equilibrium is a fixed point of `relax`: with `p->v2 = (0, 0, mzeq)`,
for every duration `dt` and all rates `R1`, `R2` (any fields of `p`), `relax` leaves
`(0, 0, mzeq)` in `p->v1`. -/
theorem relax_equilibrium_fixed (p : data ℝ) (dt : ℝ) :
    (relax realLibm { p with v2 := ⟨0, 0, p.mzeq⟩ } dt).v1 = ⟨0, 0, p.mzeq⟩ := by
  simp [relax]

/-- C8. For `R2 > 0`, a vector `v` with a nonzero transverse component and `dt1 < dt2`,
the transverse magnitude of `relax(v, dt2)` is strictly smaller than that of
`relax(v, dt1)`, and `|x|` (resp. `|y|`) of the output strictly decreases whenever the
input `x` (resp. `y`) is nonzero. -/
theorem relax_transverse_strict_decay (p : data ℝ) (v : Vec3 ℝ) (dt1 dt2 : ℝ)
    (hR2 : 0 < p.R2) (hv : v.x ≠ 0 ∨ v.y ≠ 0) (hdt : dt1 < dt2) :
    Real.sqrt ((relaxV realLibm p v dt2).x ^ 2 + (relaxV realLibm p v dt2).y ^ 2)
        < Real.sqrt ((relaxV realLibm p v dt1).x ^ 2 + (relaxV realLibm p v dt1).y ^ 2)
      ∧ (v.x ≠ 0 → |(relaxV realLibm p v dt2).x| < |(relaxV realLibm p v dt1).x|)
      ∧ (v.y ≠ 0 → |(relaxV realLibm p v dt2).y| < |(relaxV realLibm p v dt1).y|) := by
  have he : Real.exp (-p.R2 * dt2) < Real.exp (-p.R2 * dt1) := by
    apply Real.exp_lt_exp.mpr
    nlinarith
  have h2 : 0 < Real.exp (-p.R2 * dt2) := Real.exp_pos _
  have h1 : 0 < Real.exp (-p.R2 * dt1) := Real.exp_pos _
  have hsq : Real.exp (-p.R2 * dt2) ^ 2 < Real.exp (-p.R2 * dt1) ^ 2 :=
    pow_lt_pow_left₀ he h2.le (by norm_num)
  have hpos : 0 < v.x ^ 2 + v.y ^ 2 := by
    rcases hv with h | h
    · have := pow_pos (abs_pos.mpr h) 2
      rw [sq_abs] at this
      nlinarith [sq_nonneg v.y]
    · have := pow_pos (abs_pos.mpr h) 2
      rw [sq_abs] at this
      nlinarith [sq_nonneg v.x]
  simp only [relaxV_eq, realLibm]
  refine ⟨?_, ?_, ?_⟩
  · apply Real.sqrt_lt_sqrt (by positivity)
    have e1 : (v.x * Real.exp (-p.R2 * dt2)) ^ 2 + (v.y * Real.exp (-p.R2 * dt2)) ^ 2
        = (v.x ^ 2 + v.y ^ 2) * Real.exp (-p.R2 * dt2) ^ 2 := by ring
    have e2 : (v.x * Real.exp (-p.R2 * dt1)) ^ 2 + (v.y * Real.exp (-p.R2 * dt1)) ^ 2
        = (v.x ^ 2 + v.y ^ 2) * Real.exp (-p.R2 * dt1) ^ 2 := by ring
    rw [e1, e2]
    exact mul_lt_mul_of_pos_left hsq hpos
  · intro hx
    rw [abs_mul, abs_mul, abs_of_pos h2, abs_of_pos h1]
    exact mul_lt_mul_of_pos_left he (abs_pos.mpr hx)
  · intro hy
    rw [abs_mul, abs_mul, abs_of_pos h2, abs_of_pos h1]
    exact mul_lt_mul_of_pos_left he (abs_pos.mpr hy)

/-- Witness of C8: `R2 = 1`, `v = (1, 2, 0)`, `dt1 = 0`, `dt2 = 1`. -/
theorem relax_transverse_strict_decay_witness :
    Real.sqrt ((relaxV realLibm { (data.zero : data ℝ) with R2 := 1 } ⟨1, 2, 0⟩ 1).x ^ 2
          + (relaxV realLibm { (data.zero : data ℝ) with R2 := 1 } ⟨1, 2, 0⟩ 1).y ^ 2)
        < Real.sqrt ((relaxV realLibm { (data.zero : data ℝ) with R2 := 1 } ⟨1, 2, 0⟩ 0).x ^ 2
          + (relaxV realLibm { (data.zero : data ℝ) with R2 := 1 } ⟨1, 2, 0⟩ 0).y ^ 2) :=
  (relax_transverse_strict_decay { (data.zero : data ℝ) with R2 := 1 } ⟨1, 2, 0⟩ 0 1
    (by norm_num) (Or.inl (by norm_num)) (by norm_num)).1

/-- C9. `relax` composes additively in time: relaxing `v` for `a` and the result for `b`
gives the same vector as relaxing `v` for `a + b`; relaxing for a zero duration returns
`v`. -/
theorem relax_additive (p : data ℝ) (v : Vec3 ℝ) (a b : ℝ) :
    (relax realLibm { (relax realLibm { p with v2 := v } a) with
        v2 := (relax realLibm { p with v2 := v } a).v1 } b).v1
      = (relax realLibm { p with v2 := v } (a + b)).v1
    ∧ (relax realLibm { p with v2 := v } 0).v1 = v := by
  constructor
  · simp only [relax, realLibm]
    have h2 : Real.exp (-p.R2 * (a + b)) = Real.exp (-p.R2 * a) * Real.exp (-p.R2 * b) := by
      rw [← Real.exp_add]; ring_nf
    have h1 : Real.exp (-p.R1 * (a + b)) = Real.exp (-p.R1 * a) * Real.exp (-p.R1 * b) := by
      rw [← Real.exp_add]; ring_nf
    rw [h1, h2]
    congr 1 <;> ring
  · simp [relax, realLibm]

/-! ## One elementary pulse -/

section StepGeneric

variable {α : Type} [LinearOrderedField α]

/-- The rotation branch of `step`: the record after the call. -/
theorem step_rotation (L : Libm α) (S : Libsimu1 α) (p : data α) (ipulse : Nat)
    (h : p.tol < omeffOf L p ipulse) :
    ∃ w, step L S p ipulse =
      { p with
        ax := axisOf L p ipulse
        m := S.matrot (axisOf L p ipulse)
          (omeffOf L p ipulse * (p.onepulse / (p.nsubstep : α)))
        v1 := (substepV L S p
          (S.matrot (axisOf L p ipulse) (omeffOf L p ipulse * (p.onepulse / (p.nsubstep : α))))
          (p.onepulse / (p.nsubstep : α)))^[p.nsubstep.toNat] p.v1
        v2 := w } := by
  have h' : L.hypot p.om0
      (L.hypot (load p.heap p.om1x ipulse) (load p.heap p.om1y ipulse)) > p.tol := h
  unfold step
  simp only [h', if_true]
  refine forLoop_invariant
    (fun k t => ∃ w, t = { p with
        ax := axisOf L p ipulse
        m := S.matrot (axisOf L p ipulse)
          (omeffOf L p ipulse * (p.onepulse / (p.nsubstep : α)))
        v1 := (substepV L S p
          (S.matrot (axisOf L p ipulse) (omeffOf L p ipulse * (p.onepulse / (p.nsubstep : α))))
          (p.onepulse / (p.nsubstep : α)))^[k] p.v1
        v2 := w }) _ _ _ ⟨p.v2, ?_⟩ ?_
  · simp [axisOf, omeffOf]
  · rintro k t - ⟨w, rfl⟩
    refine ⟨S.matvec (S.matrot (axisOf L p ipulse)
        (omeffOf L p ipulse * (p.onepulse / (p.nsubstep : α))))
      ((substepV L S p
          (S.matrot (axisOf L p ipulse) (omeffOf L p ipulse * (p.onepulse / (p.nsubstep : α))))
          (p.onepulse / (p.nsubstep : α)))^[k] p.v1), ?_⟩
    rw [Function.iterate_succ_apply']
    simp only [relax_eq]
    simp [substepV, relaxV_eq, axisOf, omeffOf]

/-- The no-rotation branch of `step`: the record after the call. -/
theorem step_no_rotation (L : Libm α) (S : Libsimu1 α) (p : data α) (ipulse : Nat)
    (h : omeffOf L p ipulse ≤ p.tol) :
    step L S p ipulse = { p with v1 := relaxV L p p.v1 p.onepulse, v2 := p.v1 } := by
  have h' : ¬ L.hypot p.om0
      (L.hypot (load p.heap p.om1x ipulse) (load p.heap p.om1y ipulse)) > p.tol :=
    not_lt.mpr h
  unfold step
  simp only [h', if_false]
  simp [relax_eq, relaxV_eq]

theorem step_params (L : Libm α) (S : Libsimu1 α) (p : data α) (ipulse : Nat) :
    (step L S p ipulse).params = p.params := by
  rcases lt_or_le p.tol (omeffOf L p ipulse) with h | h
  · obtain ⟨w, hw⟩ := step_rotation L S p ipulse h
    rw [hw]
    rfl
  · rw [step_no_rotation L S p ipulse h]
    rfl

/-- The vector left in `p->v1` by `step` depends on the parameters and on `p->v1` only,
not on the scratch fields `m`, `ax`, `v2`. -/
theorem step_v1_congr (L : Libm α) (S : Libsimu1 α) (p q : data α) (ipulse : Nat)
    (hp : p.params = q.params) (hv : p.v1 = q.v1) :
    (step L S p ipulse).v1 = (step L S q ipulse).v1 := by
  have e1 : p.heap = q.heap := by
    simpa [data.params] using congrArg data.heap hp
  have e2 : p.om1x = q.om1x := by
    simpa [data.params] using congrArg data.om1x hp
  have e3 : p.om1y = q.om1y := by
    simpa [data.params] using congrArg data.om1y hp
  have e4 : p.om0 = q.om0 := by
    simpa [data.params] using congrArg data.om0 hp
  have e5 : p.tol = q.tol := by
    simpa [data.params] using congrArg data.tol hp
  have e6 : p.nsubstep = q.nsubstep := by
    simpa [data.params] using congrArg data.nsubstep hp
  have e7 : p.onepulse = q.onepulse := by
    simpa [data.params] using congrArg data.onepulse hp
  have e8 : p.R1 = q.R1 := by
    simpa [data.params] using congrArg data.R1 hp
  have e9 : p.R2 = q.R2 := by
    simpa [data.params] using congrArg data.R2 hp
  have e10 : p.mzeq = q.mzeq := by
    simpa [data.params] using congrArg data.mzeq hp
  have hom : omeffOf L p ipulse = omeffOf L q ipulse := by
    simp only [omeffOf, e1, e2, e3, e4]
  have hax : axisOf L p ipulse = axisOf L q ipulse := by
    simp only [axisOf, hom, e1, e2, e3, e4]
  have hrel : ∀ v dt, relaxV L p v dt = relaxV L q v dt := by
    intro v dt
    simp only [relaxV_eq, e8, e9, e10]
  rcases lt_or_le p.tol (omeffOf L p ipulse) with h | h
  · obtain ⟨w, hw⟩ := step_rotation L S p ipulse h
    obtain ⟨w', hw'⟩ := step_rotation L S q ipulse (by rw [← e5, ← hom]; exact h)
    rw [hw, hw']
    have hsub : ∀ m dt, substepV L S p m dt = substepV L S q m dt := by
      intro m dt
      funext v
      simp only [substepV, hrel]
    simp only [hsub, hax, hom, e6, e7, hv]
  · rw [step_no_rotation L S p ipulse h,
      step_no_rotation L S q ipulse (by rw [← e5, ← hom]; exact h)]
    simp only [hrel, hv, e7]

end StepGeneric

theorem omeffOf_real (p : data ℝ) (ipulse : Nat) :
    omeffOf realLibm p ipulse
      = Real.sqrt ((load p.heap p.om1x ipulse) ^ 2 + (load p.heap p.om1y ipulse) ^ 2
          + p.om0 ^ 2) := by
  simp only [omeffOf, realLibm]
  rw [Real.sq_sqrt (by positivity)]
  congr 1
  ring

/-- C2. `step` computes `omeff = sqrt(om1x[ipulse]^2 + om1y[ipulse]^2 + om0^2)`.  If
`omeff > tol`, it leaves in `p->v1` the vector obtained from `p->v1` by `nsubstep`
repetitions of (rotation by the matrix `matrot(ax, omeff * dt)` with
`ax = (om1x, om1y, om0) / omeff`, then `relax` during `dt`), with
`dt = onepulse / nsubstep`, the matrix being the same in every repetition.  Otherwise
(`omeff <= tol`) it leaves `relax(p->v1, onepulse)`, without rotation. -/
theorem step_spec (S : Libsimu1 ℝ) (p : data ℝ) (ipulse : Nat)
    (_hi : (ipulse : Int) < p.npulse) (_hn : 1 ≤ p.nsubstep) :
    omeffOf realLibm p ipulse
        = Real.sqrt ((load p.heap p.om1x ipulse) ^ 2 + (load p.heap p.om1y ipulse) ^ 2
            + p.om0 ^ 2)
      ∧ axisOf realLibm p ipulse
        = ⟨load p.heap p.om1x ipulse / omeffOf realLibm p ipulse,
            load p.heap p.om1y ipulse / omeffOf realLibm p ipulse,
            p.om0 / omeffOf realLibm p ipulse⟩
      ∧ (p.tol < omeffOf realLibm p ipulse →
          (step realLibm S p ipulse).v1
            = (fun v => relaxV realLibm p
                (S.matvec (S.matrot (axisOf realLibm p ipulse)
                  (omeffOf realLibm p ipulse * (p.onepulse / (p.nsubstep : ℝ)))) v)
                (p.onepulse / (p.nsubstep : ℝ)))^[p.nsubstep.toNat] p.v1)
      ∧ (omeffOf realLibm p ipulse ≤ p.tol →
          (step realLibm S p ipulse).v1 = relaxV realLibm p p.v1 p.onepulse) := by
  refine ⟨omeffOf_real p ipulse, rfl, ?_, ?_⟩
  · intro h
    obtain ⟨w, hw⟩ := step_rotation realLibm S p ipulse h
    rw [hw]
    rfl
  · intro h
    rw [step_no_rotation realLibm S p ipulse h]

/-- Witness of C2: one pulse, one substep, offset `om0 = 1` and no RF field, so that
`omeff = 1 > tol`; the result is one rotation followed by one relaxation. -/
theorem step_spec_witness :
    (step realLibm (rodrigues realLibm)
        { (data.zero : data ℝ) with
          npulse := 1, nsubstep := 1, om0 := 1, om1y := 1, heap := [0, 0],
          tol := 1 / 100000 } 0).v1
      = (fun v => relaxV realLibm
          { (data.zero : data ℝ) with
            npulse := 1, nsubstep := 1, om0 := 1, om1y := 1, heap := [0, 0],
            tol := 1 / 100000 }
          ((rodrigues realLibm).matvec ((rodrigues realLibm).matrot
            (axisOf realLibm
              { (data.zero : data ℝ) with
                npulse := 1, nsubstep := 1, om0 := 1, om1y := 1, heap := [0, 0],
                tol := 1 / 100000 } 0)
            (omeffOf realLibm
              { (data.zero : data ℝ) with
                npulse := 1, nsubstep := 1, om0 := 1, om1y := 1, heap := [0, 0],
                tol := 1 / 100000 } 0 * (0 / ((1 : Int) : ℝ)))) v)
          (0 / ((1 : Int) : ℝ)))^[(1 : Int).toNat] (⟨0, 0, 0⟩ : Vec3 ℝ) :=
  (step_spec (rodrigues realLibm)
    { (data.zero : data ℝ) with
      npulse := 1, nsubstep := 1, om0 := 1, om1y := 1, heap := [0, 0],
      tol := 1 / 100000 } 0 (by norm_num) (by norm_num)).2.2.1
    (by rw [omeffOf_real]; norm_num [load, data.zero])

/-- C10. With `om1x[ipulse] = om1y[ipulse] = 0` and `om0 = 0` (and the tolerance
`tol >= 0`; `main` sets `tol = 1.0e-5`), `step` is exactly one call of `relax` on
`p->v1` over the duration `onepulse`: the rotation matrix `m` and the axis `ax` are
left untouched, and the result is the same for every value of `nsubstep`. -/
theorem step_zero_field (S : Libsimu1 ℝ) (p : data ℝ) (ipulse : Nat)
    (hx : load p.heap p.om1x ipulse = 0) (hy : load p.heap p.om1y ipulse = 0)
    (h0 : p.om0 = 0) (htol : 0 ≤ p.tol) (n : Int) :
    step realLibm S { p with nsubstep := n } ipulse
        = relax realLibm { p with nsubstep := n, v2 := p.v1 } p.onepulse
      ∧ (step realLibm S { p with nsubstep := n } ipulse).v1 = relaxV realLibm p p.v1 p.onepulse
      ∧ (step realLibm S { p with nsubstep := n } ipulse).m = p.m
      ∧ (step realLibm S { p with nsubstep := n } ipulse).ax = p.ax := by
  have hom : omeffOf realLibm { p with nsubstep := n } ipulse
      ≤ ({ p with nsubstep := n } : data ℝ).tol := by
    rw [omeffOf_real]
    simp [hx, hy, h0, htol]
  rw [step_no_rotation realLibm S _ ipulse hom]
  simp [relax_eq, relaxV_eq]

/-- Witness of C10: the all-zero record with `tol = 1.0e-5`, `v1 = (1, 2, 3)` and
`nsubstep = 7`. -/
theorem step_zero_field_witness :
    (step realLibm (rodrigues realLibm)
        { { (data.zero : data ℝ) with tol := 1 / 100000, v1 := ⟨1, 2, 3⟩ } with
          nsubstep := 7 } 0).v1
      = relaxV realLibm { (data.zero : data ℝ) with tol := 1 / 100000, v1 := ⟨1, 2, 3⟩ }
          ⟨1, 2, 3⟩ 0 :=
  (step_zero_field (rodrigues realLibm)
    { (data.zero : data ℝ) with tol := 1 / 100000, v1 := ⟨1, 2, 3⟩ } 0
    (by simp [load, data.zero]) (by simp [load, data.zero]) rfl (by norm_num [data.zero]) 7).2.1

/-! ## One trajectory -/

section TrajGeneric

variable {α : Type} [LinearOrderedField α]

theorem pulses_params (L : Libm α) (S : Libsimu1 α) (g : Nat → Nat) (n : Nat) (p : data α) :
    (forLoop n (fun k q => step L S q (g k)) p).params = p.params := by
  refine forLoop_invariant (fun _ (t : data α) => t.params = p.params) _ _ _ rfl ?_
  intro i t _ ht
  rw [step_params, ht]

theorem pulses_v1_congr (L : Libm α) (S : Libsimu1 α) (g : Nat → Nat) (n : Nat)
    (p q : data α) (hp : p.params = q.params) (hv : p.v1 = q.v1) :
    (forLoop n (fun k t => step L S t (g k)) p).v1
      = (forLoop n (fun k t => step L S t (g k)) q).v1 := by
  induction n with
  | zero => simpa [forLoop_zero] using hv
  | succ k ih =>
    rw [forLoop_succ, forLoop_succ]
    exact step_v1_congr L S _ _ _ (by rw [pulses_params, pulses_params, hp]) ih

/-- The two nested loops of `onetraj` as one loop over `nseq * npulse` pulses. -/
theorem onetraj_flat (L : Libm α) (S : Libsimu1 α) (p : data α) :
    onetraj L S p
      = forLoop (p.nseq.toNat * p.npulse.toNat) (pulseAt L S p.npulse.toNat)
          { p with v1 := ⟨0, 0, p.mzeq⟩ } := by
  have h1 : onetraj L S p
      = forLoop p.nseq.toNat
          (fun _ t => forLoop p.npulse.toNat (fun i q => step L S q i) t)
          { p with v1 := ⟨0, 0, p.mzeq⟩ } := by
    unfold onetraj
    simp only []
    refine forLoop_invariant
      (fun a t => t = forLoop a
        (fun _ t => forLoop p.npulse.toNat (fun i q => step L S q i) t)
        { p with v1 := ⟨0, 0, p.mzeq⟩ }) _ _ _ rfl ?_
    rintro a t - rfl
    rw [forLoop_succ]
    have hnp : (forLoop a (fun _ t => forLoop p.npulse.toNat (fun i q => step L S q i) t)
        ({ p with v1 := ⟨0, 0, p.mzeq⟩ } : data α)).npulse = p.npulse := by
      rw [forLoop_nested]
      simpa [data.params] using congrArg data.npulse
        (pulses_params L S (fun k => k % p.npulse.toNat) (a * p.npulse.toNat)
          { p with v1 := ⟨0, 0, p.mzeq⟩ })
    rw [hnp]
  rw [h1, forLoop_nested]
  rfl

theorem onetraj_params (L : Libm α) (S : Libsimu1 α) (p : data α) :
    (onetraj L S p).params = p.params := by
  rw [onetraj_flat]
  exact pulses_params L S (fun k => k % p.npulse.toNat) _ _

/-- The vector left in `p->v1` by `onetraj` depends on the parameters only, not on the
scratch fields `m`, `ax`, `v1`, `v2`. -/
theorem onetraj_v1_congr (L : Libm α) (S : Libsimu1 α) (p q : data α)
    (hp : p.params = q.params) :
    (onetraj L S p).v1 = (onetraj L S q).v1 := by
  have e1 : p.nseq = q.nseq := by
    simpa [data.params] using congrArg data.nseq hp
  have e2 : p.npulse = q.npulse := by
    simpa [data.params] using congrArg data.npulse hp
  have e3 : p.mzeq = q.mzeq := by
    simpa [data.params] using congrArg data.mzeq hp
  have h := pulses_v1_congr L S (fun k => k % p.npulse.toNat)
    (p.nseq.toNat * p.npulse.toNat)
    { p with v1 := ⟨0, 0, p.mzeq⟩ } { q with v1 := ⟨0, 0, q.mzeq⟩ } hp (by simp only [e3])
  rw [onetraj_flat, onetraj_flat]
  rw [show q.nseq.toNat = p.nseq.toNat by rw [e1], show q.npulse.toNat = p.npulse.toNat by rw [e2]]
  exact h

end TrajGeneric

/-- C3. For `nseq >= 0` and `npulse >= 0`, `onetraj` returns the record obtained by
setting `p->v1 = (0, 0, mzeq)` and calling `step` exactly `nseq * npulse` times in
sequence, call number `k` (from 0) with pulse index `k mod npulse`; the resulting `v1`
does not depend on the previous contents of `v1` and `v2`; and with `nseq = 0` or
`npulse = 0` it is `(0, 0, mzeq)`. -/
theorem onetraj_spec (S : Libsimu1 ℝ) (p : data ℝ) (hseq : 0 ≤ p.nseq) (hpulse : 0 ≤ p.npulse) :
    onetraj realLibm S p
        = forLoop (p.nseq * p.npulse).toNat
            (fun k q => step realLibm S q (k % p.npulse.toNat))
            { p with v1 := ⟨0, 0, p.mzeq⟩ }
      ∧ (∀ u w : Vec3 ℝ,
          (onetraj realLibm S { p with v1 := u, v2 := w }).v1 = (onetraj realLibm S p).v1)
      ∧ (p.nseq = 0 ∨ p.npulse = 0 → (onetraj realLibm S p).v1 = ⟨0, 0, p.mzeq⟩) := by
  have hcount : (p.nseq * p.npulse).toNat = p.nseq.toNat * p.npulse.toNat := by
    obtain ⟨a, ha⟩ := Int.eq_ofNat_of_zero_le hseq
    obtain ⟨b, hb⟩ := Int.eq_ofNat_of_zero_le hpulse
    rw [ha, hb, Int.toNat_natCast, Int.toNat_natCast, ← Int.natCast_mul, Int.toNat_natCast]
  refine ⟨?_, ?_, ?_⟩
  · rw [hcount, onetraj_flat]
    rfl
  · intro u w
    exact onetraj_v1_congr realLibm S _ _ rfl
  · intro h
    rw [onetraj_flat]
    have hz : p.nseq.toNat * p.npulse.toNat = 0 := by
      rcases h with h | h <;> simp [h]
    rw [hz, forLoop_zero]

/-- Witness of C3: two repetitions of a one-pulse shape, from arbitrary `v1`. -/
theorem onetraj_spec_witness :
    onetraj realLibm (rodrigues realLibm)
        { (exShape : data ℝ) with nseq := 2, v1 := ⟨5, 6, 7⟩ }
      = forLoop (((2 : Int) * 1).toNat)
          (fun k q => step realLibm (rodrigues realLibm) q (k % (1 : Int).toNat))
          { ({ (exShape : data ℝ) with nseq := 2, v1 := ⟨5, 6, 7⟩ } : data ℝ) with
            v1 := ⟨0, 0, 0⟩ } :=
  (onetraj_spec (rodrigues realLibm) { (exShape : data ℝ) with nseq := 2, v1 := ⟨5, 6, 7⟩ }
    (by decide) (by decide)).1

/-! ## The offset sweep -/

section SweepGeneric

variable {α : Type} [LinearOrderedField α]

theorem params_of_sweepParams (p q : data α) (h : p.sweepParams = q.sweepParams)
    (hnu : p.nu0 = q.nu0) (hom : p.om0 = q.om0) : p.params = q.params := by
  cases p
  cases q
  simp only [data.sweepParams, data.params, data.mk.injEq] at h hnu hom ⊢
  simp only [h, hnu, hom, and_self]

theorem sweepParams_of_params (p q : data α) (a b : α) (h : p.params = q.params) :
    ({ p with nu0 := a, om0 := b } : data α).sweepParams = q.sweepParams := by
  cases p
  cases q
  simp only [data.sweepParams, data.params, data.mk.injEq] at h ⊢
  simp only [h, and_self]

theorem sweepState_succ (L : Libm α) (S : Libsimu1 α) (p : data α) (k : Nat) :
    sweepState L S p (k + 1)
      = { onetraj L S (sweepState L S p k) with
          nu0 := (sweepState L S p k).nu0 + (sweepState L S p k).dnu0
          om0 := (sweepState L S p k).om0 + (sweepState L S p k).dom0 } := by
  have e1 : (onetraj L S (sweepState L S p k)).nu0 = (sweepState L S p k).nu0 := by
    simpa [data.params] using congrArg data.nu0 (onetraj_params L S (sweepState L S p k))
  have e2 : (onetraj L S (sweepState L S p k)).dnu0 = (sweepState L S p k).dnu0 := by
    simpa [data.params] using congrArg data.dnu0 (onetraj_params L S (sweepState L S p k))
  have e3 : (onetraj L S (sweepState L S p k)).om0 = (sweepState L S p k).om0 := by
    simpa [data.params] using congrArg data.om0 (onetraj_params L S (sweepState L S p k))
  have e4 : (onetraj L S (sweepState L S p k)).dom0 = (sweepState L S p k).dom0 := by
    simpa [data.params] using congrArg data.dom0 (onetraj_params L S (sweepState L S p k))
  rw [← e1, ← e2, ← e3, ← e4]
  simp only [sweepState, forLoop_succ, alltrajBody]

theorem sweepOut_succ (L : Libm α) (S : Libsimu1 α) (p : data α) (k : Nat) :
    sweepOut L S p (k + 1)
      = sweepOut L S p k
          ++ [((sweepState L S p k).nu0, (onetraj L S (sweepState L S p k)).v1.z)] := by
  have e1 : (onetraj L S (sweepState L S p k)).nu0 = (sweepState L S p k).nu0 := by
    simpa [data.params] using congrArg data.nu0 (onetraj_params L S (sweepState L S p k))
  rw [← e1]
  simp only [sweepOut, sweepState, forLoop_succ, alltrajBody]

/-- The record at the start of iteration `k`: the shared parameters are those of the
initial record, and the offset has been advanced `k` times. -/
theorem sweepState_spec (L : Libm α) (S : Libsimu1 α) (p : data α) (k : Nat) :
    (sweepState L S p k).sweepParams = p.sweepParams
      ∧ (sweepState L S p k).nu0 = p.nu0 + (k : α) * p.dnu0
      ∧ (sweepState L S p k).om0 = p.om0 + (k : α) * p.dom0 := by
  induction k with
  | zero => simp [sweepState, forLoop_zero]
  | succ k ih =>
    obtain ⟨h1, h2, h3⟩ := ih
    have hd : (sweepState L S p k).dnu0 = p.dnu0 := by
      simpa [data.params, data.sweepParams] using congrArg data.dnu0 h1
    have hd' : (sweepState L S p k).dom0 = p.dom0 := by
      simpa [data.params, data.sweepParams] using congrArg data.dom0 h1
    rw [sweepState_succ]
    refine ⟨?_, ?_, ?_⟩
    · rw [← h1]
      exact sweepParams_of_params _ _ _ _ (onetraj_params L S (sweepState L S p k))
    · simp only [h2, hd]
      push_cast
      ring
    · simp only [h3, hd']
      push_cast
      ring

theorem sweepOut_length (L : Libm α) (S : Libsimu1 α) (p : data α) (k : Nat) :
    (sweepOut L S p k).length = k := by
  induction k with
  | zero => rfl
  | succ k ih => rw [sweepOut_succ, List.length_append, ih]; rfl

/-- Line `j` of the output is printed by iteration `j`. -/
theorem sweepOut_get (L : Libm α) (S : Libsimu1 α) (p : data α) (k j : Nat) (hj : j < k) :
    (sweepOut L S p k)[j]?
      = some ((sweepState L S p j).nu0, (onetraj L S (sweepState L S p j)).v1.z) := by
  induction k with
  | zero => omega
  | succ k ih =>
    rw [sweepOut_succ]
    rcases Nat.lt_succ_iff_lt_or_eq.mp hj with h | h
    · rw [List.getElem?_append_left (by rw [sweepOut_length]; exact h)]
      exact ih h
    · subst h
      rw [List.getElem?_append_right (by rw [sweepOut_length])]
      simp [sweepOut_length]

theorem sweepOut_fst (L : Libm α) (S : Libsimu1 α) (p : data α) (k : Nat) :
    (sweepOut L S p k).map Prod.fst = (List.range k).map (fun j : Nat => p.nu0 + (j : α) * p.dnu0) := by
  induction k with
  | zero => rfl
  | succ k ih =>
    rw [sweepOut_succ, List.map_append, ih, List.range_succ, List.map_append,
      (sweepState_spec L S p k).2.1]
    rfl

theorem alltraj_out (L : Libm α) (S : Libsimu1 α) (p : data α) :
    (alltraj L S p).2 = sweepOut L S p (p.nnu0 + 1).toNat := rfl

end SweepGeneric

/-! ## The pulse shape -/

section ShapeGeneric

variable {α : Type} [LinearOrderedField α]

theorem load_store_same (h : List α) (a i : Nat) (v : α) (hlt : a + i < h.length) :
    load (store h a i v) a i = v := by
  simp [load, store, List.getD_eq_getElem?_getD, List.getElem?_set_self hlt]

theorem load_store_ne (h : List α) (a i b j : Nat) (v : α) (hne : a + i ≠ b + j) :
    load (store h a i v) b j = load h b j := by
  simp [load, store, List.getD_eq_getElem?_getD, List.getElem?_set_ne hne]

theorem length_store {β : Type} (h : List β) (a i : Nat) (v : β) :
    (store h a i v).length = h.length := by
  simp [store]

theorem map_range_getD {β : Type} (l : List α) (g : α → β) :
    (List.range l.length).map (fun k => g (l.getD k 0)) = l.map g := by
  apply List.ext_getElem
  · simp
  · intro n h1 h2
    have hn : n < l.length := by simpa using h2
    simp [List.getD_eq_getElem?_getD, List.getElem?_eq_getElem hn]

/-- The inner loop of `prepom1xy` for one modulation: the phase after `n` elementary
pulses is `n * dphi`, and `cos`, `sin` of the phase of pulse `j` have been added to
entry `j` of the first and of the second half of the buffer. -/
theorem phase_loop (L : Libm α) (dphi : α) (N : Nat) (q : data α) (hx : q.om1x = 0)
    (hy : q.om1y = N) (hlen : q.heap.length = 2 * N) (n : Nat) (hn : n ≤ N) :
    ∃ h : List α,
      forLoop n
        (fun i (s : data α × α) =>
          let p := s.1
          let phi := s.2
          let p := { p with heap := store p.heap p.om1x i (load p.heap p.om1x i + L.cos phi) }
          let p := { p with heap := store p.heap p.om1y i (load p.heap p.om1y i + L.sin phi) }
          (p, phi + dphi)) (q, 0)
        = ({ q with heap := h }, (n : α) * dphi)
      ∧ h.length = 2 * N
      ∧ (∀ j, j < N →
          load h 0 j = load q.heap 0 j + if j < n then L.cos ((j : α) * dphi) else 0)
      ∧ (∀ j, j < N →
          load h N j = load q.heap N j + if j < n then L.sin ((j : α) * dphi) else 0) := by
  induction n with
  | zero =>
    refine ⟨q.heap, ?_, hlen, ?_, ?_⟩
    · simp [forLoop_zero]
    · intro j _; simp
    · intro j _; simp
  | succ k ih =>
    obtain ⟨h, hloop, hl, hc, hs⟩ := ih (Nat.le_of_succ_le hn)
    have hk : k < N := hn
    refine ⟨store (store h 0 k (load h 0 k + L.cos ((k : α) * dphi))) N k
      (load (store h 0 k (load h 0 k + L.cos ((k : α) * dphi))) N k
        + L.sin ((k : α) * dphi)), ?_, ?_, ?_, ?_⟩
    · rw [forLoop_succ, hloop]
      simp only [hx, hy]
      congr 1
      push_cast
      ring
    · rw [length_store, length_store, hl]
    · intro j hj
      rw [load_store_ne _ _ _ _ _ _ (by omega)]
      by_cases hjk : j = k
      · subst hjk
        rw [load_store_same _ _ _ _ (by omega), hc j hj]
        simp
      · rw [load_store_ne _ _ _ _ _ _ (by omega), hc j hj]
        have : (j < k + 1) = (j < k) := by
          apply propext; omega
        simp only [this]
    · intro j hj
      by_cases hjk : j = k
      · subst hjk
        rw [load_store_same _ _ _ _ (by rw [length_store]; omega),
          load_store_ne _ _ _ _ _ _ (by omega), hs j hj]
        simp
      · rw [load_store_ne _ _ _ _ _ _ (by omega), load_store_ne _ _ _ _ _ _ (by omega),
          hs j hj]
        have : (j < k + 1) = (j < k) := by
          apply propext; omega
        simp only [this]

/-- The loop over the modulations of `prepom1xy`, started on a zeroed buffer of
`2 * N` entries: after `s` modulations, entry `j` of the first (second) half holds the
sum of the cosines (sines) of the phases of pulse `j` for the first `s` modulations. -/
theorem shift_loop (L : Libm α) (N : Nat) (q : data α) (hx : q.om1x = 0)
    (hy : q.om1y = N) (hheap : q.heap = List.replicate (2 * N) 0) (s : Nat) :
    ∃ h : List α,
      forLoop s
        (fun ishift p =>
          let shift := p.shifts.getD ishift 0
          let dphi := 2 * L.pi * shift * p.onepulse
          (forLoop N
            (fun i (s : data α × α) =>
              let p := s.1
              let phi := s.2
              let p := { p with heap := store p.heap p.om1x i (load p.heap p.om1x i + L.cos phi) }
              let p := { p with heap := store p.heap p.om1y i (load p.heap p.om1y i + L.sin phi) }
              (p, phi + dphi)) (p, 0)).1) q
        = { q with heap := h }
      ∧ h.length = 2 * N
      ∧ (∀ j, j < N →
          load h 0 j = ((List.range s).map (fun k => L.cos ((j : α) * dphiOf L q k))).sum)
      ∧ (∀ j, j < N →
          load h N j = ((List.range s).map (fun k => L.sin ((j : α) * dphiOf L q k))).sum) := by
  induction s with
  | zero =>
    refine ⟨q.heap, ?_, ?_, ?_, ?_⟩
    · simp [forLoop_zero]
    · simp [hheap]
    · intro j hj
      have : j < 2 * N := by omega
      simp [hheap, load, List.getD_eq_getElem?_getD, List.getElem?_replicate, this]
    · intro j hj
      have : N + j < 2 * N := by omega
      simp [hheap, load, List.getD_eq_getElem?_getD, List.getElem?_replicate, this]
  | succ k ih =>
    obtain ⟨h, hloop, hl, hc, hs⟩ := ih
    obtain ⟨h', hloop', hl', hc', hs'⟩ :=
      phase_loop L (dphiOf L q k) N { q with heap := h } hx hy hl N (Nat.le_refl N)
    refine ⟨h', ?_, hl', ?_, ?_⟩
    · rw [forLoop_succ, hloop]
      simp only []
      exact congrArg Prod.fst hloop'
    · intro j hj
      rw [hc' j hj, List.range_succ, List.map_append, List.sum_append]
      simp [hj, hc j hj]
    · intro j hj
      rw [hs' j hj, List.range_succ, List.map_append, List.sum_append]
      simp [hj, hs j hj]

/-- The scaling loop of `prepom1xy`: the first `n` entries of the buffer starting at
`om1x` are multiplied by `om1`. -/
theorem scale_loop (om1 : α) (q : data α) (hx : q.om1x = 0) (n : Nat)
    (hn : n ≤ q.heap.length) :
    ∃ h : List α,
      forLoop n
        (fun i p => { p with heap := store p.heap p.om1x i (load p.heap p.om1x i * om1) }) q
        = { q with heap := h }
      ∧ h.length = q.heap.length
      ∧ (∀ j, load h 0 j = if j < n then load q.heap 0 j * om1 else load q.heap 0 j) := by
  induction n with
  | zero =>
    exact ⟨q.heap, by simp [forLoop_zero], rfl, by intro j; simp⟩
  | succ k ih =>
    obtain ⟨h, hloop, hl, hv⟩ := ih (Nat.le_of_succ_le hn)
    refine ⟨store h 0 k (load h 0 k * om1), ?_, ?_, ?_⟩
    · rw [forLoop_succ, hloop]
      simp only [hx]
    · rw [length_store, hl]
    · intro j
      by_cases hjk : j = k
      · subst hjk
        rw [load_store_same _ _ _ _ (by omega), hv j]
        simp
      · rw [load_store_ne _ _ _ _ _ _ (by omega), hv j]
        have : (j < k + 1) = (j < k) := by
          apply propext; omega
        simp only [this]

/-- Function `prepom1xy` changes the buffer and its two pointers only; the buffer has
`2 * npulse` entries, `om1x` points to its start and `om1y` to its middle; entry `i`
of `om1x` (of `om1y`) is the sum of the cosines (sines) of the phases of pulse `i` over
the modulations, times `om1 / nshift`. -/
theorem prepom1xy_eq (L : Libm α) (p : data α) :
    ∃ h : List α,
      prepom1xy L p = { p with heap := h, om1x := 0, om1y := p.npulse.toNat }
      ∧ h.length = 2 * p.npulse.toNat
      ∧ (∀ i, i < p.npulse.toNat →
          load h 0 i
            = ((List.range p.nshift.toNat).map
                (fun k => L.cos ((i : α) * dphiOf L p k))).sum * (p.om1 / (p.nshift : α)))
      ∧ (∀ i, i < p.npulse.toNat →
          load h p.npulse.toNat i
            = ((List.range p.nshift.toNat).map
                (fun k => L.sin ((i : α) * dphiOf L p k))).sum * (p.om1 / (p.nshift : α))) := by
  have h2 : (2 * p.npulse).toNat = 2 * p.npulse.toNat := by omega
  obtain ⟨h, hloop, hl, hc, hs⟩ :=
    shift_loop L p.npulse.toNat
      { p with heap := List.replicate (2 * p.npulse.toNat) 0, om1x := 0,
               om1y := p.npulse.toNat }
      rfl rfl rfl p.nshift.toNat
  obtain ⟨h', hloop', hl', hv⟩ :=
    scale_loop (p.om1 / (p.nshift : α))
      { p with heap := h, om1x := 0, om1y := p.npulse.toNat } rfl (2 * p.npulse.toNat)
      (by simp [hl])
  refine ⟨h', ?_, ?_, ?_, ?_⟩
  · unfold prepom1xy
    simp only [h2, Nat.zero_add]
    rw [hloop]
    exact hloop'
  · rw [hl']
    exact hl
  · intro i hi
    rw [hv i, if_pos (by omega)]
    simp only []
    rw [hc i hi]
    rfl
  · intro i hi
    have e : load h' p.npulse.toNat i = load h' 0 (p.npulse.toNat + i) := by
      simp [load]
    have e' : load h p.npulse.toNat i = load h 0 (p.npulse.toNat + i) := by
      simp [load]
    rw [e, hv (p.npulse.toNat + i), if_pos (by omega)]
    simp only []
    rw [← e', hs i hi]
    rfl

end ShapeGeneric

section MainGeneric

variable {α : Type} [LinearOrderedField α]

/-- The record `main` hands to `alltraj`: `prepom1xy` keeps the offsets set by the
calculated-parameters section. -/
theorem mainPrep_fields (L : Libm α) (p : data α) :
    (prepom1xy L (mainCalc L p)).nnu0 = p.nnu0
      ∧ (prepom1xy L (mainCalc L p)).nu0 = p.nu0min
      ∧ (prepom1xy L (mainCalc L p)).dnu0 = (p.nu0max - p.nu0min) / (p.nnu0 : α)
      ∧ (prepom1xy L (mainCalc L p)).om0 = 2 * L.pi * p.nu0min
      ∧ (prepom1xy L (mainCalc L p)).dom0
          = 2 * L.pi * ((p.nu0max - p.nu0min) / (p.nnu0 : α)) := by
  obtain ⟨h, hP, -⟩ := prepom1xy_eq L (mainCalc L p)
  rw [hP]
  exact ⟨rfl, rfl, rfl, rfl, rfl⟩

end MainGeneric

/-- C1. For a shift table of length `nshift >= 1` and `npulse >= 1`, `prepom1xy`
produces a buffer of `2 * npulse` entries with `om1x` at its start and
`om1y = om1x + npulse`, and for every `i < npulse`:
`om1x[i] = (om1 / nshift) * sum over shifts f of cos(i * 2*pi*f*onepulse)` and
`om1y[i] = (om1 / nshift) * sum over shifts f of sin(i * 2*pi*f*onepulse)`; the scale
factor reaches the entries of both arrays. -/
theorem prepom1xy_spec (p : data ℝ) (hlen : (p.shifts.length : Int) = p.nshift)
    (_hshift : 1 ≤ p.nshift) (_hpulse : 1 ≤ p.npulse) :
    (prepom1xy realLibm p).heap.length = 2 * p.npulse.toNat
      ∧ (prepom1xy realLibm p).om1x = 0
      ∧ (prepom1xy realLibm p).om1y = (prepom1xy realLibm p).om1x + p.npulse.toNat
      ∧ ∀ i : Nat, (i : Int) < p.npulse →
          load (prepom1xy realLibm p).heap (prepom1xy realLibm p).om1x i
              = p.om1 / (p.nshift : ℝ)
                * (p.shifts.map
                    (fun f => Real.cos ((i : ℝ) * (2 * Real.pi * f * p.onepulse)))).sum
            ∧ load (prepom1xy realLibm p).heap (prepom1xy realLibm p).om1y i
              = p.om1 / (p.nshift : ℝ)
                * (p.shifts.map
                    (fun f => Real.sin ((i : ℝ) * (2 * Real.pi * f * p.onepulse)))).sum := by
  obtain ⟨h, hP, hl, hc, hs⟩ := prepom1xy_eq realLibm p
  have hn : p.nshift.toNat = p.shifts.length := by omega
  rw [hP]
  refine ⟨hl, rfl, by simp, ?_⟩
  intro i hi
  have hi' : i < p.npulse.toNat := by omega
  constructor
  · show load h 0 i = _
    rw [hc i hi', hn, mul_comm]
    congr 2
    exact map_range_getD p.shifts
      (fun f => Real.cos ((i : ℝ) * (2 * Real.pi * f * p.onepulse)))
  · show load h p.npulse.toNat i = _
    rw [hs i hi', hn, mul_comm]
    congr 2
    exact map_range_getD p.shifts
      (fun f => Real.sin ((i : ℝ) * (2 * Real.pi * f * p.onepulse)))

/-- Witness of C1: one modulation at 0 Hz, one elementary pulse, amplitude 1. -/
theorem prepom1xy_spec_witness :
    (prepom1xy realLibm (exShape : data ℝ)).heap.length = 2 * (exShape : data ℝ).npulse.toNat
      ∧ load (prepom1xy realLibm (exShape : data ℝ)).heap
          (prepom1xy realLibm (exShape : data ℝ)).om1y 0
        = (exShape : data ℝ).om1 / ((exShape : data ℝ).nshift : ℝ)
          * ((exShape : data ℝ).shifts.map
              (fun f => Real.sin (((0 : Nat) : ℝ)
                * (2 * Real.pi * f * (exShape : data ℝ).onepulse)))).sum :=
  ⟨(prepom1xy_spec exShape rfl (by decide) (by decide)).1,
    ((prepom1xy_spec exShape rfl (by decide) (by decide)).2.2.2 0 (by decide)).2⟩

/-- C4. For every `k` in `0..nnu0`, at the start of iteration `k` of the loop of
`alltraj` (run by `main`) the pair `(nu0, om0)` satisfies `om0 = 2*pi*nu0`, and line `k`
of the output is `nu0` together with the z component left by a fresh `onetraj` run with
`om0 = 2*pi*nu0` on the record prepared by `main`, whatever the scratch fields
`m`, `ax`, `v1`, `v2` contain. -/
theorem alltraj_points_independent (S : Libsimu1 ℝ) (p : data ℝ) (k : Nat)
    (hk : (k : Int) ≤ p.nnu0) :
    (sweepState realLibm S (prepom1xy realLibm (mainCalc realLibm p)) k).om0
        = 2 * Real.pi * (sweepState realLibm S (prepom1xy realLibm (mainCalc realLibm p)) k).nu0
      ∧ ∀ (m' : Mat33 ℝ) (ax' u w : Vec3 ℝ),
          (mainSim realLibm S p)[k]?
            = some ((sweepState realLibm S (prepom1xy realLibm (mainCalc realLibm p)) k).nu0,
                (onetraj realLibm S
                  { prepom1xy realLibm (mainCalc realLibm p) with
                    nu0 := (sweepState realLibm S
                      (prepom1xy realLibm (mainCalc realLibm p)) k).nu0
                    om0 := 2 * Real.pi * (sweepState realLibm S
                      (prepom1xy realLibm (mainCalc realLibm p)) k).nu0
                    m := m', ax := ax', v1 := u, v2 := w }).v1.z) := by
  obtain ⟨f1, f2, f3, f4, f5⟩ := mainPrep_fields realLibm p
  obtain ⟨g1, g2, g3⟩ :=
    sweepState_spec realLibm S (prepom1xy realLibm (mainCalc realLibm p)) k
  have hom : (sweepState realLibm S (prepom1xy realLibm (mainCalc realLibm p)) k).om0
      = 2 * Real.pi
        * (sweepState realLibm S (prepom1xy realLibm (mainCalc realLibm p)) k).nu0 := by
    rw [g2, g3, f2, f3, f4, f5]
    simp only [realLibm]
    ring
  refine ⟨hom, ?_⟩
  intro m' ax' u w
  have hlt : k < ((prepom1xy realLibm (mainCalc realLibm p)).nnu0 + 1).toNat := by
    rw [f1]; omega
  have hout : (mainSim realLibm S p)[k]?
      = (sweepOut realLibm S (prepom1xy realLibm (mainCalc realLibm p))
          ((prepom1xy realLibm (mainCalc realLibm p)).nnu0 + 1).toNat)[k]? := rfl
  rw [hout, sweepOut_get realLibm S _ _ k hlt]
  congr 2
  apply congrArg Vec3.z
  apply onetraj_v1_congr
  apply params_of_sweepParams
  · rw [g1]; rfl
  · rfl
  · exact hom

/-- Witness of C4: the last of the three profile points of the example input. -/
theorem alltraj_points_independent_witness :
    (sweepState realLibm (rodrigues realLibm)
        (prepom1xy realLibm (mainCalc realLibm (exInput : data ℝ))) 2).om0
      = 2 * Real.pi * (sweepState realLibm (rodrigues realLibm)
        (prepom1xy realLibm (mainCalc realLibm (exInput : data ℝ))) 2).nu0 :=
  (alltraj_points_independent (rodrigues realLibm) exInput 2 (by decide)).1

/-- C5. For `nnu0 >= 0`, `alltraj` prints exactly `nnu0 + 1` lines, on any record and
in particular on the one prepared by `main`; with `nnu0 = 0` the run of `main` prints
exactly one line, whose offset is `nu0min`. -/
theorem alltraj_cardinality (S : Libsimu1 ℝ) (p : data ℝ) (h : 0 ≤ p.nnu0) :
    ((alltraj realLibm S p).2.length : Int) = p.nnu0 + 1
      ∧ ((mainSim realLibm S p).length : Int) = p.nnu0 + 1
      ∧ (p.nnu0 = 0 → (mainSim realLibm S p).map Prod.fst = [p.nu0min]) := by
  obtain ⟨f1, f2, -⟩ := mainPrep_fields realLibm p
  have hmain : mainSim realLibm S p
      = sweepOut realLibm S (prepom1xy realLibm (mainCalc realLibm p))
          ((prepom1xy realLibm (mainCalc realLibm p)).nnu0 + 1).toNat := rfl
  refine ⟨?_, ?_, ?_⟩
  · rw [alltraj_out, sweepOut_length]
    omega
  · rw [hmain, sweepOut_length, f1]
    omega
  · intro h0
    rw [hmain, sweepOut_fst, f1, f2, h0]
    simp [List.range_succ]

/-- Witness of C5: the example input has `nnu0 = 2` and gives 3 lines. -/
theorem alltraj_cardinality_witness :
    ((mainSim realLibm (rodrigues realLibm) (exInput : data ℝ)).length : Int)
      = (exInput : data ℝ).nnu0 + 1 :=
  (alltraj_cardinality (rodrigues realLibm) exInput (by decide)).2.1

/-- C6. For `nnu0 >= 1`, the offsets printed by the run of `main` are, in order,
`nu0min + k * (nu0max - nu0min) / nnu0` for `k = 0..nnu0`: the first is `nu0min`, the
last is `nu0max`, consecutive offsets differ by `(nu0max - nu0min) / nnu0`, and they are
strictly increasing when `nu0min < nu0max`. -/
theorem sweep_offsets (S : Libsimu1 ℝ) (p : data ℝ) (h : 1 ≤ p.nnu0) :
    (mainSim realLibm S p).map Prod.fst
        = (List.range (p.nnu0 + 1).toNat).map
            (fun k : Nat => p.nu0min + (k : ℝ) * (p.nu0max - p.nu0min) / (p.nnu0 : ℝ))
      ∧ ((mainSim realLibm S p).map Prod.fst)[0]? = some p.nu0min
      ∧ ((mainSim realLibm S p).map Prod.fst)[p.nnu0.toNat]? = some p.nu0max
      ∧ (∀ k : Nat, (k : Int) < p.nnu0 →
          ∃ a b, ((mainSim realLibm S p).map Prod.fst)[k]? = some a
            ∧ ((mainSim realLibm S p).map Prod.fst)[k + 1]? = some b
            ∧ b - a = (p.nu0max - p.nu0min) / (p.nnu0 : ℝ))
      ∧ (p.nu0min < p.nu0max → ((mainSim realLibm S p).map Prod.fst).Pairwise (· < ·)) := by
  obtain ⟨f1, f2, f3, -⟩ := mainPrep_fields realLibm p
  have hmain : mainSim realLibm S p
      = sweepOut realLibm S (prepom1xy realLibm (mainCalc realLibm p))
          ((prepom1xy realLibm (mainCalc realLibm p)).nnu0 + 1).toNat := rfl
  have hlist : (mainSim realLibm S p).map Prod.fst
      = (List.range (p.nnu0 + 1).toNat).map
          (fun k : Nat => p.nu0min + (k : ℝ) * (p.nu0max - p.nu0min) / (p.nnu0 : ℝ)) := by
    rw [hmain, sweepOut_fst, f1, f2, f3]
    apply List.map_congr_left
    intro k _
    ring
  have hn : (0 : ℝ) < (p.nnu0 : ℝ) := by
    have : (0 : Int) < p.nnu0 := by omega
    exact_mod_cast this
  have hcast : ((p.nnu0.toNat : Nat) : ℝ) = (p.nnu0 : ℝ) := by
    have : ((p.nnu0.toNat : Nat) : Int) = p.nnu0 := Int.toNat_of_nonneg (by omega)
    exact_mod_cast congrArg (fun z : Int => (z : ℝ)) this
  refine ⟨hlist, ?_, ?_, ?_, ?_⟩
  · rw [hlist, List.getElem?_map, List.getElem?_range (by omega)]
    simp
  · rw [hlist, List.getElem?_map, List.getElem?_range (by omega)]
    simp only [Option.map_some', hcast]
    congr 1
    field_simp
  · intro k hk
    refine ⟨p.nu0min + (k : ℝ) * (p.nu0max - p.nu0min) / (p.nnu0 : ℝ),
      p.nu0min + ((k + 1 : Nat) : ℝ) * (p.nu0max - p.nu0min) / (p.nnu0 : ℝ), ?_, ?_, ?_⟩
    · rw [hlist, List.getElem?_map, List.getElem?_range (by omega)]
      rfl
    · rw [hlist, List.getElem?_map, List.getElem?_range (by omega)]
      rfl
    · push_cast
      ring
  · intro hlt
    rw [hlist, List.pairwise_map]
    refine (List.pairwise_lt_range _).imp ?_
    intro a b hab
    have hab' : (a : ℝ) < (b : ℝ) := by exact_mod_cast hab
    have hd : 0 < (p.nu0max - p.nu0min) / (p.nnu0 : ℝ) := div_pos (by linarith) hn
    have e : ∀ c : ℝ, c * (p.nu0max - p.nu0min) / (p.nnu0 : ℝ)
        = c * ((p.nu0max - p.nu0min) / (p.nnu0 : ℝ)) := fun c => by ring
    rw [e, e]
    have := mul_lt_mul_of_pos_right hab' hd
    linarith

/-- Witness of C6: the example input sweeps 0, 5, 10 Hz; the last offset is `nu0max`. -/
theorem sweep_offsets_witness :
    ((mainSim realLibm (rodrigues realLibm) (exInput : data ℝ)).map Prod.fst)[
        (exInput : data ℝ).nnu0.toNat]?
      = some (exInput : data ℝ).nu0max :=
  (sweep_offsets (rodrigues realLibm) exInput (by decide)).2.2.1

/-! ## No RF field -/

/-- The constants and derived parameters set by `main` are still there after
`prepom1xy`. -/
theorem mainPrep_consts {α : Type} [LinearOrderedField α] (L : Libm α) (p : data α) :
    (prepom1xy L (mainCalc L p)).mzeq = 1
      ∧ (prepom1xy L (mainCalc L p)).tol = 1 / 100000
      ∧ (prepom1xy L (mainCalc L p)).R1 = 1 / p.T1
      ∧ (prepom1xy L (mainCalc L p)).R2 = 1 / p.T2
      ∧ (prepom1xy L (mainCalc L p)).onepulse = p.bigpulse / (p.npulse : α)
      ∧ (prepom1xy L (mainCalc L p)).npulse = p.npulse
      ∧ (prepom1xy L (mainCalc L p)).nsubstep = p.nsubstep
      ∧ (prepom1xy L (mainCalc L p)).nseq = L.toInt (L.round (p.d1 / p.bigpulse)) := by
  obtain ⟨h, hP, -⟩ := prepom1xy_eq L (mainCalc L p)
  rw [hP]
  exact ⟨rfl, rfl, rfl, rfl, rfl, rfl, rfl, rfl⟩

/-- With a zero waveform, zero offset and a tolerance `tol >= 0`, a trajectory stays at
the equilibrium `(0, 0, mzeq)`. -/
theorem onetraj_zero_field (S : Libsimu1 ℝ) (q : data ℝ) (htol : 0 ≤ q.tol)
    (hom : q.om0 = 0)
    (hx : ∀ i, i < q.npulse.toNat → load q.heap q.om1x i = 0)
    (hy : ∀ i, i < q.npulse.toNat → load q.heap q.om1y i = 0) :
    (onetraj realLibm S q).v1 = ⟨0, 0, q.mzeq⟩ := by
  rw [onetraj_flat]
  refine (forLoop_invariant
    (fun (_ : Nat) (t : data ℝ) => t.params = q.params ∧ t.v1 = ⟨0, 0, q.mzeq⟩)
    (pulseAt realLibm S q.npulse.toNat) { q with v1 := ⟨0, 0, q.mzeq⟩ }
    (q.nseq.toNat * q.npulse.toNat) ⟨rfl, rfl⟩ ?_).2
  rintro k t hk ⟨hp, hv⟩
  have hN : 0 < q.npulse.toNat := by
    rcases Nat.eq_zero_or_pos q.npulse.toNat with h0 | h0
    · rw [h0, Nat.mul_zero] at hk
      exact absurd hk (Nat.not_lt_zero k)
    · exact h0
  have hi : k % q.npulse.toNat < q.npulse.toNat := Nat.mod_lt k hN
  have e1 : t.heap = q.heap := by simpa [data.params] using congrArg data.heap hp
  have e2 : t.om1x = q.om1x := by simpa [data.params] using congrArg data.om1x hp
  have e3 : t.om1y = q.om1y := by simpa [data.params] using congrArg data.om1y hp
  have e4 : t.om0 = q.om0 := by simpa [data.params] using congrArg data.om0 hp
  have e5 : t.tol = q.tol := by simpa [data.params] using congrArg data.tol hp
  have e6 : t.mzeq = q.mzeq := by simpa [data.params] using congrArg data.mzeq hp
  have hzero : omeffOf realLibm t (k % q.npulse.toNat) ≤ t.tol := by
    rw [omeffOf_real, e1, e2, e3, e4, e5, hx _ hi, hy _ hi, hom]
    simpa using htol
  refine ⟨?_, ?_⟩
  · show (step realLibm S t (k % q.npulse.toNat)).params = q.params
    rw [step_params, hp]
  · show (step realLibm S t (k % q.npulse.toNat)).v1 = _
    rw [step_no_rotation realLibm S t _ hzero]
    simp [relaxV_eq, hv, e6]

/-- C11. With no RF field (`nu1 = 0`), offsets `nu0min = nu0max = 0` and `nnu0 = 0`,
for `T1, T2 > 0`, any shift table, `npulse >= 1` and any `d1`, `bigpulse` (any number
of repetitions), every waveform entry built by `prepom1xy` is 0, the trajectory ends
at `(0, 0, mzeq)` with `mzeq = 1`, and the run of `main` prints the single point
`(0, 1)`. -/
theorem no_field_equilibrium (S : Libsimu1 ℝ) (p : data ℝ) (hnu1 : p.nu1 = 0)
    (hmin : p.nu0min = 0) (_hmax : p.nu0max = 0) (hn : p.nnu0 = 0)
    (_hT1 : 0 < p.T1) (_hT2 : 0 < p.T2) (_hpulse : 1 ≤ p.npulse) :
    (∀ i : Nat, (i : Int) < p.npulse →
        load (prepom1xy realLibm (mainCalc realLibm p)).heap
            (prepom1xy realLibm (mainCalc realLibm p)).om1x i = 0
          ∧ load (prepom1xy realLibm (mainCalc realLibm p)).heap
            (prepom1xy realLibm (mainCalc realLibm p)).om1y i = 0)
      ∧ (onetraj realLibm S (prepom1xy realLibm (mainCalc realLibm p))).v1 = ⟨0, 0, 1⟩
      ∧ mainSim realLibm S p = [(0, 1)] := by
  obtain ⟨f1, f2, f3, f4, f5⟩ := mainPrep_fields realLibm p
  obtain ⟨c1, c2, -, -, -, c6, -, -⟩ := mainPrep_consts realLibm p
  obtain ⟨h, hP, hl, hc, hs⟩ := prepom1xy_eq realLibm (mainCalc realLibm p)
  have hom1 : (mainCalc realLibm p).om1 = 0 := by
    show 2 * realLibm.pi * p.nu1 = 0
    rw [hnu1, mul_zero]
  have hnp : (mainCalc realLibm p).npulse = p.npulse := rfl
  have hwave : ∀ i, i < p.npulse.toNat →
      load (prepom1xy realLibm (mainCalc realLibm p)).heap
          (prepom1xy realLibm (mainCalc realLibm p)).om1x i = 0
        ∧ load (prepom1xy realLibm (mainCalc realLibm p)).heap
          (prepom1xy realLibm (mainCalc realLibm p)).om1y i = 0 := by
    intro i hi
    rw [hnp] at hc hs
    rw [hP]
    constructor
    · show load h 0 i = 0
      rw [hc i hi, hom1, zero_div, mul_zero]
    · show load h (mainCalc realLibm p).npulse.toNat i = 0
      rw [hnp, hs i hi, hom1, zero_div, mul_zero]
  have htraj : (onetraj realLibm S (prepom1xy realLibm (mainCalc realLibm p))).v1
      = ⟨0, 0, 1⟩ := by
    rw [onetraj_zero_field S _ (by rw [c2]; norm_num) (by rw [f4, hmin, mul_zero])
      (fun i hi => (hwave i (by rw [c6] at hi; exact hi)).1)
      (fun i hi => (hwave i (by rw [c6] at hi; exact hi)).2), c1]
  refine ⟨fun i hi => hwave i (by omega), htraj, ?_⟩
  have hmain : mainSim realLibm S p
      = sweepOut realLibm S (prepom1xy realLibm (mainCalc realLibm p))
          ((prepom1xy realLibm (mainCalc realLibm p)).nnu0 + 1).toNat := rfl
  rw [hmain, f1, hn]
  show sweepOut realLibm S (prepom1xy realLibm (mainCalc realLibm p)) (0 + 1) = _
  rw [sweepOut_succ]
  have hs0 : sweepState realLibm S (prepom1xy realLibm (mainCalc realLibm p)) 0
      = prepom1xy realLibm (mainCalc realLibm p) := rfl
  have ho0 : sweepOut realLibm S (prepom1xy realLibm (mainCalc realLibm p)) 0 = [] := rfl
  rw [hs0, ho0, htraj, f2, hmin]
  rfl

/-- Witness of C11: the example input without RF field prints the single point `(0, 1)`. -/
theorem no_field_equilibrium_witness :
    mainSim realLibm (rodrigues realLibm) (exNoField : data ℝ) = [(0, 1)] :=
  (no_field_equilibrium (rodrigues realLibm) exNoField rfl rfl rfl rfl
    (by norm_num [exNoField, data.zero]) (by norm_num [exNoField, data.zero])
    (by decide)).2.2

/-! ## Linearity of the pulse shape -/

/-- C13. `prepom1xy` is linear in the total amplitude: with `om1` replaced by `c * om1`
(shift table of length `nshift >= 1`), every entry of `om1x` and of `om1y` is `c` times
the entry built with `om1`, and the root-mean-square combined amplitude is multiplied
by `|c|`. -/
theorem prepom1xy_linear (p : data ℝ) (c : ℝ)
    (_hlen : (p.shifts.length : Int) = p.nshift) (_hshift : 1 ≤ p.nshift) :
    (∀ i : Nat, (i : Int) < p.npulse →
        load (prepom1xy realLibm { p with om1 := c * p.om1 }).heap
            (prepom1xy realLibm { p with om1 := c * p.om1 }).om1x i
          = c * load (prepom1xy realLibm p).heap (prepom1xy realLibm p).om1x i
        ∧ load (prepom1xy realLibm { p with om1 := c * p.om1 }).heap
            (prepom1xy realLibm { p with om1 := c * p.om1 }).om1y i
          = c * load (prepom1xy realLibm p).heap (prepom1xy realLibm p).om1y i)
      ∧ rmsAmplitude (prepom1xy realLibm { p with om1 := c * p.om1 })
          = |c| * rmsAmplitude (prepom1xy realLibm p) := by
  obtain ⟨h, hP, hl, hc, hs⟩ := prepom1xy_eq realLibm p
  obtain ⟨h', hP', hl', hc', hs'⟩ := prepom1xy_eq realLibm { p with om1 := c * p.om1 }
  have hx : ∀ i, i < p.npulse.toNat → load h' 0 i = c * load h 0 i := by
    intro i hi
    rw [hc' i hi, hc i hi]
    simp only [dphiOf]
    ring
  have hy : ∀ i, i < p.npulse.toNat →
      load h' p.npulse.toNat i = c * load h p.npulse.toNat i := by
    intro i hi
    rw [hs' i hi, hs i hi]
    simp only [dphiOf]
    ring
  constructor
  · intro i hi
    have hi' : i < p.npulse.toNat := by omega
    rw [hP, hP']
    exact ⟨hx i hi', hy i hi'⟩
  · rw [hP, hP']
    simp only [rmsAmplitude]
    have hmap : (List.range p.npulse.toNat).map
          (fun i : Nat => (load h' 0 i) ^ 2 + (load h' p.npulse.toNat i) ^ 2)
        = (List.range p.npulse.toNat).map
          (fun i : Nat => c ^ 2 * ((load h 0 i) ^ 2 + (load h p.npulse.toNat i) ^ 2)) := by
      apply List.map_congr_left
      intro i hi
      have hi' : i < p.npulse.toNat := List.mem_range.mp hi
      rw [hx i hi', hy i hi']
      ring
    rw [hmap, List.sum_map_mul_left, mul_div_assoc, Real.sqrt_mul (sq_nonneg c),
      Real.sqrt_sq_eq_abs]

/-- Witness of C13: the one-pulse example shape with the amplitude multiplied by 3. -/
theorem prepom1xy_linear_witness :
    rmsAmplitude (prepom1xy realLibm
        { (exShape : data ℝ) with om1 := 3 * (exShape : data ℝ).om1 })
      = |(3 : ℝ)| * rmsAmplitude (prepom1xy realLibm (exShape : data ℝ)) :=
  (prepom1xy_linear exShape 3 rfl (by decide)).2

/-! ## The rotation axis -/

/-- Whenever the effective frequency is positive, the axis computed by `step` is a unit
vector. -/
theorem axisOf_unit (p : data ℝ) (ipulse : Nat) (h : 0 < omeffOf realLibm p ipulse) :
    (axisOf realLibm p ipulse).normSq = 1 := by
  have ho : omeffOf realLibm p ipulse ^ 2
      = (load p.heap p.om1x ipulse) ^ 2 + (load p.heap p.om1y ipulse) ^ 2 + p.om0 ^ 2 := by
    rw [omeffOf_real, Real.sq_sqrt (by positivity)]
  have hne : omeffOf realLibm p ipulse ≠ 0 := ne_of_gt h
  simp only [axisOf, Vec3.normSq]
  field_simp
  linarith

/-- C14. With a tolerance `tol >= 0` (`main` sets `tol = 1.0e-5`): when `step` takes the
rotation branch (`omeff > tol`), `omeff` is strictly positive, the axis stored in
`p->ax` is `(om1x, om1y, om0) / omeff`, its Euclidean norm is exactly 1, and it is the
axis given to `matrot`; when `omeff <= tol`, `p->ax` and `p->m` are left as they were
(no axis is computed, nothing is divided). -/
theorem step_axis_unit (S : Libsimu1 ℝ) (p : data ℝ) (ipulse : Nat) (htol : 0 ≤ p.tol) :
    (p.tol < omeffOf realLibm p ipulse →
        0 < omeffOf realLibm p ipulse
          ∧ (step realLibm S p ipulse).ax
            = ⟨load p.heap p.om1x ipulse / omeffOf realLibm p ipulse,
                load p.heap p.om1y ipulse / omeffOf realLibm p ipulse,
                p.om0 / omeffOf realLibm p ipulse⟩
          ∧ Real.sqrt ((step realLibm S p ipulse).ax.normSq) = 1
          ∧ (step realLibm S p ipulse).m
            = S.matrot (step realLibm S p ipulse).ax
                (omeffOf realLibm p ipulse * (p.onepulse / (p.nsubstep : ℝ))))
      ∧ (omeffOf realLibm p ipulse ≤ p.tol →
          (step realLibm S p ipulse).ax = p.ax ∧ (step realLibm S p ipulse).m = p.m) := by
  constructor
  · intro h
    have hpos : 0 < omeffOf realLibm p ipulse := lt_of_le_of_lt htol h
    obtain ⟨w, hw⟩ := step_rotation realLibm S p ipulse h
    rw [hw]
    refine ⟨hpos, rfl, ?_, rfl⟩
    show Real.sqrt ((axisOf realLibm p ipulse).normSq) = 1
    rw [axisOf_unit p ipulse hpos, Real.sqrt_one]
  · intro h
    rw [step_no_rotation realLibm S p ipulse h]
    exact ⟨rfl, rfl⟩

/-- Witness of C14: offset `om0 = 1` and no RF field give `omeff = 1 > tol`. -/
theorem step_axis_unit_witness :
    Real.sqrt ((step realLibm (rodrigues realLibm)
        { (data.zero : data ℝ) with
          npulse := 1, nsubstep := 1, om0 := 1, om1y := 1, heap := [0, 0],
          tol := 1 / 100000 } 0).ax.normSq) = 1 :=
  ((step_axis_unit (rodrigues realLibm)
    { (data.zero : data ℝ) with
      npulse := 1, nsubstep := 1, om0 := 1, om1y := 1, heap := [0, 0],
      tol := 1 / 100000 } 0 (by norm_num)).1
    (by rw [omeffOf_real]; norm_num [load, data.zero])).2.2.1

/-! ## The number of repetitions -/

/-- Counterexample to C17 as stated: with `d1 = 10000000000` and `bigpulse = 1` the
quotient does not fit the `int` that holds `nseq`; the conversion gives `INT_MIN`, and
`nseq` is not within `1/2` of `d1 / bigpulse`. -/
theorem nseq_overflow :
    ¬ (|((mainCalc realLibm (exLongDelay : data ℝ)).nseq : ℝ)
        - (exLongDelay : data ℝ).d1 / (exLongDelay : data ℝ).bigpulse| ≤ 1 / 2) := by
  have hfl : ⌊((10000000000 : ℝ) / 1 + 1 / 2)⌋ = (10000000000 : Int) := by
    rw [Int.floor_eq_iff]
    constructor <;> norm_num
  have hn : (mainCalc realLibm (exLongDelay : data ℝ)).nseq = -2147483648 := by
    show ctrunc (cround ((10000000000 : ℝ) / 1)) = _
    have h1 : cround ((10000000000 : ℝ) / 1) = ((10000000000 : Int) : ℝ) := by
      simp only [cround, if_pos (by norm_num : (0 : ℝ) ≤ (10000000000 : ℝ) / 1), hfl]
    rw [h1]
    have h2 : (0 : ℝ) ≤ ((10000000000 : Int) : ℝ) := by norm_num
    simp only [ctrunc, if_pos h2, Int.floor_intCast]
    decide
  rw [hn]
  have hd : (exLongDelay : data ℝ).d1 / (exLongDelay : data ℝ).bigpulse = 10000000000 := by
    show (10000000000 : ℝ) / 1 = 10000000000
    norm_num
  rw [hd, abs_le]
  push_cast
  intro h
  linarith [h.1]

/-- C17, amended. For `d1 >= 0` and `bigpulse > 0` with `d1 / bigpulse + 1/2 < 2^31` (the
rounded quotient fits the 32-bit `int` that holds `nseq`), the repetition count `nseq`
computed by `main` is `floor(d1 / bigpulse + 1/2)`: it is within `1/2` of
`d1 / bigpulse`, no integer is nearer, a tie `k + 1/2` goes to `k + 1` (away from zero),
and `nseq * bigpulse` differs from `d1` by at most `bigpulse / 2`. -/
theorem nseq_nearest (p : data ℝ) (hd1 : 0 ≤ p.d1) (hbig : 0 < p.bigpulse)
    (hfit : p.d1 / p.bigpulse + 1 / 2 < 2147483648) :
    (mainCalc realLibm p).nseq = ⌊p.d1 / p.bigpulse + 1 / 2⌋
      ∧ |((mainCalc realLibm p).nseq : ℝ) - p.d1 / p.bigpulse| ≤ 1 / 2
      ∧ (∀ m : Int, |((mainCalc realLibm p).nseq : ℝ) - p.d1 / p.bigpulse|
          ≤ |(m : ℝ) - p.d1 / p.bigpulse|)
      ∧ (∀ k : Int, p.d1 / p.bigpulse = (k : ℝ) + 1 / 2 → (mainCalc realLibm p).nseq = k + 1)
      ∧ |((mainCalc realLibm p).nseq : ℝ) * p.bigpulse - p.d1| ≤ p.bigpulse / 2 := by
  have hx : 0 ≤ p.d1 / p.bigpulse := div_nonneg hd1 hbig.le
  have hfl : (0 : Int) ≤ ⌊p.d1 / p.bigpulse + 1 / 2⌋ := Int.floor_nonneg.mpr (by linarith)
  have hn : (mainCalc realLibm p).nseq = ⌊p.d1 / p.bigpulse + 1 / 2⌋ := by
    show ctrunc (cround (p.d1 / p.bigpulse)) = _
    have h1 : cround (p.d1 / p.bigpulse) = ((⌊p.d1 / p.bigpulse + 1 / 2⌋ : Int) : ℝ) := by
      simp only [cround, if_pos hx]
    have h2 : (0 : ℝ) ≤ ((⌊p.d1 / p.bigpulse + 1 / 2⌋ : Int) : ℝ) := by exact_mod_cast hfl
    have hup : ⌊p.d1 / p.bigpulse + 1 / 2⌋ ≤ (2147483647 : Int) := by
      have hlt : ⌊p.d1 / p.bigpulse + 1 / 2⌋ < (2147483648 : Int) := by
        rw [Int.floor_lt]
        exact_mod_cast hfit
      omega
    have hlow : (-2147483648 : Int) ≤ ⌊p.d1 / p.bigpulse + 1 / 2⌋ := by omega
    rw [h1]
    simp only [ctrunc, if_pos h2, Int.floor_intCast, if_pos (And.intro hlow hup)]
  have hlo : ((⌊p.d1 / p.bigpulse + 1 / 2⌋ : Int) : ℝ) ≤ p.d1 / p.bigpulse + 1 / 2 :=
    Int.floor_le _
  have hhi : p.d1 / p.bigpulse + 1 / 2 < ((⌊p.d1 / p.bigpulse + 1 / 2⌋ : Int) : ℝ) + 1 :=
    Int.lt_floor_add_one _
  have habs : |((mainCalc realLibm p).nseq : ℝ) - p.d1 / p.bigpulse| ≤ 1 / 2 := by
    rw [hn, abs_le]
    constructor <;> linarith
  refine ⟨hn, habs, ?_, ?_, ?_⟩
  · intro m
    by_cases hm : m = (mainCalc realLibm p).nseq
    · rw [hm]
    · have hdiff : (1 : ℝ) ≤ |(m : ℝ) - ((mainCalc realLibm p).nseq : ℝ)| := by
        have hz : (1 : Int) ≤ |m - (mainCalc realLibm p).nseq| :=
          Int.one_le_abs (sub_ne_zero.mpr hm)
        exact_mod_cast hz
      have htri : |(m : ℝ) - ((mainCalc realLibm p).nseq : ℝ)|
          ≤ |(m : ℝ) - p.d1 / p.bigpulse|
            + |((mainCalc realLibm p).nseq : ℝ) - p.d1 / p.bigpulse| := by
        have := abs_sub_le (m : ℝ) (p.d1 / p.bigpulse) ((mainCalc realLibm p).nseq : ℝ)
        rw [abs_sub_comm (p.d1 / p.bigpulse) ((mainCalc realLibm p).nseq : ℝ)] at this
        exact this
      linarith
  · intro k hk
    rw [hn, hk]
    have : (k : ℝ) + 1 / 2 + 1 / 2 = ((k + 1 : Int) : ℝ) := by push_cast; ring
    rw [this, Int.floor_intCast]
  · have hmul : ((mainCalc realLibm p).nseq : ℝ) * p.bigpulse - p.d1
        = (((mainCalc realLibm p).nseq : ℝ) - p.d1 / p.bigpulse) * p.bigpulse := by
      field_simp
    rw [hmul, abs_mul, abs_of_pos hbig]
    calc |((mainCalc realLibm p).nseq : ℝ) - p.d1 / p.bigpulse| * p.bigpulse
        ≤ 1 / 2 * p.bigpulse := mul_le_mul_of_nonneg_right habs hbig.le
      _ = p.bigpulse / 2 := by ring

/-- Witness of the amended C17: `d1 = 2`, `bigpulse = 1` give `nseq = floor(2 + 1/2)`. -/
theorem nseq_nearest_witness :
    (mainCalc realLibm (exInput : data ℝ)).nseq
      = ⌊(exInput : data ℝ).d1 / (exInput : data ℝ).bigpulse + 1 / 2⌋ :=
  (nseq_nearest exInput (by norm_num [exInput, data.zero])
    (by norm_num [exInput, data.zero]) (by norm_num [exInput, data.zero])).1

/-! ## Boundedness of the magnetization -/

theorem sqrt_le_one_iff (x : ℝ) : Real.sqrt x ≤ 1 ↔ x ≤ 1 := by
  rw [Real.sqrt_le_iff]
  norm_num

/-- Rodrigues' rotation about a unit axis keeps the norm. -/
theorem rodrigues_isometric : (rodrigues realLibm).isometric := by
  intro ax angle v hax
  have hK : ax.x ^ 2 + ax.y ^ 2 + ax.z ^ 2 = 1 := hax
  have hC : Real.cos angle ^ 2 + Real.sin angle ^ 2 = 1 := Real.cos_sq_add_sin_sq angle
  simp only [rodrigues, realLibm, Vec3.normSq]
  linear_combination
    ((v.x ^ 2 + v.y ^ 2 + v.z ^ 2) * Real.sin angle ^ 2
      + (ax.x * v.x + ax.y * v.y + ax.z * v.z) ^ 2 * (1 - Real.cos angle) ^ 2) * hK
    + ((v.x ^ 2 + v.y ^ 2 + v.z ^ 2) - (ax.x * v.x + ax.y * v.y + ax.z * v.z) ^ 2) * hC

theorem boundedRegime_of_params (p q : data ℝ) (h : p.params = q.params)
    (hq : boundedRegime q) : boundedRegime p := by
  have e1 : p.mzeq = q.mzeq := by simpa [data.params] using congrArg data.mzeq h
  have e2 : p.R1 = q.R1 := by simpa [data.params] using congrArg data.R1 h
  have e3 : p.R2 = q.R2 := by simpa [data.params] using congrArg data.R2 h
  have e4 : p.tol = q.tol := by simpa [data.params] using congrArg data.tol h
  have e5 : p.onepulse = q.onepulse := by
    simpa [data.params] using congrArg data.onepulse h
  have e6 : p.nsubstep = q.nsubstep := by
    simpa [data.params] using congrArg data.nsubstep h
  simpa only [boundedRegime, e1, e2, e3, e4, e5, e6] using hq

/-- In the bounded regime, `relax` over a duration `dt >= 0` maps the unit ball into
itself. -/
theorem relaxV_normSq_le (q : data ℝ) (hq : boundedRegime q) (v : Vec3 ℝ) (dt : ℝ)
    (hdt : 0 ≤ dt) (hv : v.normSq ≤ 1) : (relaxV realLibm q v dt).normSq ≤ 1 := by
  obtain ⟨hm, hR1, hR, -, -, -⟩ := hq
  have hb0 : 0 < Real.exp (-q.R1 * dt) := Real.exp_pos _
  have hb1 : Real.exp (-q.R1 * dt) ≤ 1 := by
    apply Real.exp_le_one_iff.mpr
    nlinarith
  have ha : Real.exp (-q.R2 * dt) ^ 2 ≤ Real.exp (-q.R1 * dt) := by
    rw [sq, ← Real.exp_add]
    apply Real.exp_le_exp.mpr
    nlinarith
  have hxy : 0 ≤ v.x ^ 2 + v.y ^ 2 := by positivity
  have hv' : v.x ^ 2 + v.y ^ 2 + v.z ^ 2 ≤ 1 := hv
  have h1 : Real.exp (-q.R2 * dt) ^ 2 * (v.x ^ 2 + v.y ^ 2)
      ≤ Real.exp (-q.R1 * dt) * (1 - v.z ^ 2) := by
    calc Real.exp (-q.R2 * dt) ^ 2 * (v.x ^ 2 + v.y ^ 2)
        ≤ Real.exp (-q.R1 * dt) * (v.x ^ 2 + v.y ^ 2) :=
          mul_le_mul_of_nonneg_right ha hxy
      _ ≤ Real.exp (-q.R1 * dt) * (1 - v.z ^ 2) :=
          mul_le_mul_of_nonneg_left (by linarith) hb0.le
  have h2 : 0 ≤ Real.exp (-q.R1 * dt) * (1 - Real.exp (-q.R1 * dt)) * (1 - v.z) ^ 2 :=
    mul_nonneg (mul_nonneg hb0.le (by linarith)) (sq_nonneg _)
  simp only [relaxV_eq, realLibm, Vec3.normSq, hm]
  nlinarith [h1, h2]

/-- In the bounded regime and with a norm-preserving rotation, `step` maps the unit ball
into itself. -/
theorem step_normSq_le (S : Libsimu1 ℝ) (hS : S.isometric) (q : data ℝ)
    (hq : boundedRegime q) (ipulse : Nat) (hv : q.v1.normSq ≤ 1) :
    (step realLibm S q ipulse).v1.normSq ≤ 1 := by
  obtain ⟨hm, hR1, hR, htol, hone, hsub⟩ := hq
  rcases lt_or_le q.tol (omeffOf realLibm q ipulse) with h | h
  · obtain ⟨w, hw⟩ := step_rotation realLibm S q ipulse h
    rw [hw]
    show ((substepV realLibm S q _ _)^[q.nsubstep.toNat] q.v1).normSq ≤ 1
    have hdt : 0 ≤ q.onepulse / (q.nsubstep : ℝ) :=
      div_nonneg hone (by exact_mod_cast hsub)
    have hax : (axisOf realLibm q ipulse).normSq = 1 :=
      axisOf_unit q ipulse (lt_of_le_of_lt htol h)
    induction q.nsubstep.toNat with
    | zero => exact hv
    | succ n ih =>
      rw [Function.iterate_succ_apply']
      apply relaxV_normSq_le q ⟨hm, hR1, hR, htol, hone, hsub⟩ _ _ hdt
      rw [hS _ _ _ hax]
      exact ih
  · rw [step_no_rotation realLibm S q ipulse h]
    exact relaxV_normSq_le q ⟨hm, hR1, hR, htol, hone, hsub⟩ _ _ hone hv

/-- In the bounded regime and with a norm-preserving rotation, every trajectory ends in
the unit ball. -/
theorem onetraj_normSq_le (S : Libsimu1 ℝ) (hS : S.isometric) (q : data ℝ)
    (hq : boundedRegime q) : (onetraj realLibm S q).v1.normSq ≤ 1 := by
  rw [onetraj_flat]
  refine (forLoop_invariant
    (fun (_ : Nat) (t : data ℝ) => t.params = q.params ∧ t.v1.normSq ≤ 1)
    (pulseAt realLibm S q.npulse.toNat) { q with v1 := ⟨0, 0, q.mzeq⟩ }
    (q.nseq.toNat * q.npulse.toNat) ⟨rfl, ?_⟩ ?_).2
  · show (⟨0, 0, q.mzeq⟩ : Vec3 ℝ).normSq ≤ 1
    simp [Vec3.normSq, hq.1]
  · rintro k t - ⟨hp, hv⟩
    refine ⟨?_, ?_⟩
    · show (step realLibm S t (k % q.npulse.toNat)).params = q.params
      rw [step_params, hp]
    · exact step_normSq_le S hS t (boundedRegime_of_params t q hp hq) _ hv

/-- Every printed line comes from one iteration of the loop of `alltraj`. -/
theorem sweepOut_mem {α : Type} [LinearOrderedField α] (L : Libm α) (S : Libsimu1 α)
    (p : data α) (k : Nat) (pt : α × α) (h : pt ∈ sweepOut L S p k) :
    ∃ j, j < k ∧ pt = ((sweepState L S p j).nu0, (onetraj L S (sweepState L S p j)).v1.z) := by
  induction k with
  | zero => simp [sweepOut, forLoop_zero] at h
  | succ k ih =>
    rw [sweepOut_succ, List.mem_append] at h
    rcases h with h | h
    · obtain ⟨j, hj, hpt⟩ := ih h
      exact ⟨j, Nat.lt_succ_of_lt hj, hpt⟩
    · exact ⟨k, Nat.lt_succ_self k, List.mem_singleton.mp h⟩

/-- The record prepared by `main` is in the bounded regime when `0 < T2 <= 2 * T1`,
`bigpulse >= 0`, `npulse >= 1` and `nsubstep >= 1`. -/
theorem mainPrep_bounded (p : data ℝ) (hT2 : 0 < p.T2) (hT : p.T2 ≤ 2 * p.T1)
    (hbig : 0 ≤ p.bigpulse) (hnp : 1 ≤ p.npulse) (hsub : 1 ≤ p.nsubstep) :
    boundedRegime (prepom1xy realLibm (mainCalc realLibm p)) := by
  obtain ⟨c1, c2, c3, c4, c5, c6, c7, -⟩ := mainPrep_consts realLibm p
  have hT1 : 0 < p.T1 := by linarith
  refine ⟨c1, ?_, ?_, ?_, ?_, ?_⟩
  · rw [c3]
    positivity
  · rw [c3, c4]
    rw [div_le_iff₀ hT1]
    have : 2 * (1 / p.T2) * p.T1 = (2 * p.T1) / p.T2 := by ring
    rw [this, le_div_iff₀ hT2]
    linarith
  · rw [c2]
    norm_num
  · rw [c5]
    exact div_nonneg hbig (by exact_mod_cast (by omega : (0 : Int) ≤ p.npulse))
  · rw [c7]
    omega

/-- C20. For `0 < T2 <= 2 * T1` (so `R1 <= 2 * R2`), `mzeq = 1`, durations
`bigpulse >= 0`, `npulse >= 1`, `nsubstep >= 1`, and a rotation of libsimu1 that keeps
the norm for unit axes (as Rodrigues' rotation does), on the record prepared by `main`:
`relax` over `dt >= 0` maps every vector of Euclidean norm `<= mzeq` to one of norm
`<= mzeq`; so does `step`, for every pulse and offset; every trajectory started by
`onetraj` ends with norm `<= mzeq`; and every residual z printed by the sweep lies in
`[-mzeq, mzeq]`. -/
theorem magnetization_bounded (S : Libsimu1 ℝ) (hS : S.isometric) (p : data ℝ)
    (hT2 : 0 < p.T2) (hT : p.T2 ≤ 2 * p.T1) (hbig : 0 ≤ p.bigpulse)
    (hnp : 1 ≤ p.npulse) (hsub : 1 ≤ p.nsubstep) :
    (prepom1xy realLibm (mainCalc realLibm p)).mzeq = 1
      ∧ (∀ (v : Vec3 ℝ) (dt : ℝ), 0 ≤ dt →
          Real.sqrt v.normSq ≤ (prepom1xy realLibm (mainCalc realLibm p)).mzeq →
          Real.sqrt (relaxV realLibm (prepom1xy realLibm (mainCalc realLibm p)) v dt).normSq
            ≤ (prepom1xy realLibm (mainCalc realLibm p)).mzeq)
      ∧ (∀ (ipulse : Nat) (om : ℝ) (v : Vec3 ℝ),
          Real.sqrt v.normSq ≤ (prepom1xy realLibm (mainCalc realLibm p)).mzeq →
          Real.sqrt (step realLibm S
              { prepom1xy realLibm (mainCalc realLibm p) with om0 := om, v1 := v }
              ipulse).v1.normSq
            ≤ (prepom1xy realLibm (mainCalc realLibm p)).mzeq)
      ∧ (∀ om : ℝ,
          Real.sqrt (onetraj realLibm S
              { prepom1xy realLibm (mainCalc realLibm p) with om0 := om }).v1.normSq
            ≤ (prepom1xy realLibm (mainCalc realLibm p)).mzeq)
      ∧ (∀ pt ∈ mainSim realLibm S p,
          -(prepom1xy realLibm (mainCalc realLibm p)).mzeq ≤ pt.2
            ∧ pt.2 ≤ (prepom1xy realLibm (mainCalc realLibm p)).mzeq) := by
  have hreg := mainPrep_bounded p hT2 hT hbig hnp hsub
  have hm : (prepom1xy realLibm (mainCalc realLibm p)).mzeq = 1 := hreg.1
  rw [hm]
  refine ⟨rfl, ?_, ?_, ?_, ?_⟩
  · intro v dt hdt hv
    rw [sqrt_le_one_iff] at hv ⊢
    exact relaxV_normSq_le _ hreg v dt hdt hv
  · intro ipulse om v hv
    rw [sqrt_le_one_iff] at hv ⊢
    exact step_normSq_le S hS
      { prepom1xy realLibm (mainCalc realLibm p) with om0 := om, v1 := v } hreg ipulse hv
  · intro om
    rw [sqrt_le_one_iff]
    exact onetraj_normSq_le S hS
      { prepom1xy realLibm (mainCalc realLibm p) with om0 := om } hreg
  · intro pt hpt
    have hmain : mainSim realLibm S p
        = sweepOut realLibm S (prepom1xy realLibm (mainCalc realLibm p))
            ((prepom1xy realLibm (mainCalc realLibm p)).nnu0 + 1).toNat := rfl
    rw [hmain] at hpt
    obtain ⟨j, -, rfl⟩ := sweepOut_mem realLibm S _ _ pt hpt
    have hpar : (sweepState realLibm S (prepom1xy realLibm (mainCalc realLibm p)) j).params
        = ({ prepom1xy realLibm (mainCalc realLibm p) with
            nu0 := (sweepState realLibm S (prepom1xy realLibm (mainCalc realLibm p)) j).nu0
            om0 := (sweepState realLibm S
              (prepom1xy realLibm (mainCalc realLibm p)) j).om0 } : data ℝ).params := by
      apply params_of_sweepParams
      · rw [(sweepState_spec realLibm S _ j).1]
        rfl
      · rfl
      · rfl
    have hb := onetraj_normSq_le S hS _ (boundedRegime_of_params _ _ hpar hreg)
    have hz : (onetraj realLibm S
        (sweepState realLibm S (prepom1xy realLibm (mainCalc realLibm p)) j)).v1.z ^ 2
        ≤ 1 := by
      have hx := sq_nonneg (onetraj realLibm S
        (sweepState realLibm S (prepom1xy realLibm (mainCalc realLibm p)) j)).v1.x
      have hy := sq_nonneg (onetraj realLibm S
        (sweepState realLibm S (prepom1xy realLibm (mainCalc realLibm p)) j)).v1.y
      simp only [Vec3.normSq] at hb
      linarith
    exact abs_le.mp (sq_le_one_iff_abs_le_one _ |>.mp hz)

/-- Witness of C20: with Rodrigues' rotation, the on-resonance trajectory of the example
input ends with norm at most `mzeq`. -/
theorem magnetization_bounded_witness :
    Real.sqrt (onetraj realLibm (rodrigues realLibm)
        { prepom1xy realLibm (mainCalc realLibm (exInput : data ℝ)) with
          om0 := 0 }).v1.normSq
      ≤ (prepom1xy realLibm (mainCalc realLibm (exInput : data ℝ))).mzeq :=
  (magnetization_bounded (rodrigues realLibm) rodrigues_isometric exInput
    (by norm_num [exInput, data.zero]) (by norm_num [exInput, data.zero])
    (by norm_num [exInput, data.zero]) (by decide) (by decide)).2.2.2.1 0

/-! ## Lengthening the presaturation -/

/-- One elementary pulse of angle `pi` about the x axis, on resonance, with
`R1 = R2 = 1`, one substep of duration 1 and Rodrigues' rotation: `y` and `z` change
sign, then the vector relaxes during 1. -/
theorem pi_pulse_step (q t : data ℝ) (hp : t.params = q.params) (h0 : q.om0 = 0)
    (hx : load q.heap q.om1x 0 = Real.pi) (hy : load q.heap q.om1y 0 = 0)
    (htol : q.tol = 1 / 100000) (hsub : q.nsubstep = 1) (hone : q.onepulse = 1)
    (hR1 : q.R1 = 1) (hR2 : q.R2 = 1) (hm : q.mzeq = 1) :
    (step realLibm (rodrigues realLibm) t 0).v1
      = ⟨t.v1.x * Real.exp (-1), -t.v1.y * Real.exp (-1),
          1 + (-t.v1.z - 1) * Real.exp (-1)⟩ := by
  have e1 : t.heap = q.heap := by simpa [data.params] using congrArg data.heap hp
  have e2 : t.om1x = q.om1x := by simpa [data.params] using congrArg data.om1x hp
  have e3 : t.om1y = q.om1y := by simpa [data.params] using congrArg data.om1y hp
  have e4 : t.om0 = q.om0 := by simpa [data.params] using congrArg data.om0 hp
  have e5 : t.tol = q.tol := by simpa [data.params] using congrArg data.tol hp
  have e6 : t.nsubstep = q.nsubstep := by
    simpa [data.params] using congrArg data.nsubstep hp
  have e7 : t.onepulse = q.onepulse := by
    simpa [data.params] using congrArg data.onepulse hp
  have e8 : t.R1 = q.R1 := by simpa [data.params] using congrArg data.R1 hp
  have e9 : t.R2 = q.R2 := by simpa [data.params] using congrArg data.R2 hp
  have e10 : t.mzeq = q.mzeq := by simpa [data.params] using congrArg data.mzeq hp
  have hom : omeffOf realLibm t 0 = Real.pi := by
    rw [omeffOf_real, e1, e2, e3, e4, hx, hy, h0]
    simp [Real.sqrt_sq Real.pi_pos.le]
  have hlt : t.tol < omeffOf realLibm t 0 := by
    rw [hom, e5, htol]
    have := Real.pi_gt_three
    linarith
  have hax : axisOf realLibm t 0 = ⟨1, 0, 0⟩ := by
    simp only [axisOf, hom, e1, e2, e3, e4, hx, hy, h0]
    simp [Real.pi_ne_zero]
  obtain ⟨w, hw⟩ := step_rotation realLibm (rodrigues realLibm) t 0 hlt
  rw [hw]
  show ((substepV realLibm (rodrigues realLibm) t _ _)^[t.nsubstep.toNat] t.v1) = _
  rw [hax, hom, e6, e7, hsub, hone]
  simp [substepV, relaxV_eq, rodrigues, realLibm, e8, e9, e10, hR1, hR2, hm]

/-- The record prepared by `main` for the nutation example: one waveform entry
`(pi, 0)`, `R1 = R2 = 1`, one substep of duration 1. -/
theorem exNutation_prep :
    load (prepom1xy realLibm (mainCalc realLibm (exNutation : data ℝ))).heap
        (prepom1xy realLibm (mainCalc realLibm (exNutation : data ℝ))).om1x 0 = Real.pi
      ∧ load (prepom1xy realLibm (mainCalc realLibm (exNutation : data ℝ))).heap
        (prepom1xy realLibm (mainCalc realLibm (exNutation : data ℝ))).om1y 0 = 0
      ∧ (prepom1xy realLibm (mainCalc realLibm (exNutation : data ℝ))).tol = 1 / 100000
      ∧ (prepom1xy realLibm (mainCalc realLibm (exNutation : data ℝ))).nsubstep = 1
      ∧ (prepom1xy realLibm (mainCalc realLibm (exNutation : data ℝ))).onepulse = 1
      ∧ (prepom1xy realLibm (mainCalc realLibm (exNutation : data ℝ))).R1 = 1
      ∧ (prepom1xy realLibm (mainCalc realLibm (exNutation : data ℝ))).R2 = 1
      ∧ (prepom1xy realLibm (mainCalc realLibm (exNutation : data ℝ))).mzeq = 1
      ∧ (prepom1xy realLibm (mainCalc realLibm (exNutation : data ℝ))).npulse = 1 := by
  obtain ⟨c1, c2, c3, c4, c5, c6, c7, -⟩ := mainPrep_consts realLibm (exNutation : data ℝ)
  obtain ⟨h, hP, hl, hc, hs⟩ := prepom1xy_eq realLibm (mainCalc realLibm (exNutation : data ℝ))
  have hnp : (mainCalc realLibm (exNutation : data ℝ)).npulse.toNat = 1 := rfl
  have hom1 : (mainCalc realLibm (exNutation : data ℝ)).om1 = Real.pi := by
    show 2 * Real.pi * (1 / 2) = Real.pi
    ring
  have hns : (mainCalc realLibm (exNutation : data ℝ)).nshift = 1 := rfl
  refine ⟨?_, ?_, c2, c7, ?_, ?_, ?_, c1, c6⟩
  · rw [hP]
    show load h 0 0 = Real.pi
    rw [hc 0 (by rw [hnp]; exact Nat.zero_lt_one), hom1, hns]
    simp [List.range_succ, realLibm]
  · rw [hP]
    show load h (mainCalc realLibm (exNutation : data ℝ)).npulse.toNat 0 = 0
    rw [hs 0 (by rw [hnp]; exact Nat.zero_lt_one), hom1, hns]
    simp [List.range_succ, realLibm]
  · rw [c5]
    norm_num [exNutation, data.zero]
  · rw [c3]
    norm_num [exNutation, data.zero]
  · rw [c4]
    norm_num [exNutation, data.zero]

/-- With one elementary pulse per shape, `onetraj` with `nseq = 1` is one call of
`step`, and with `nseq = 2` two calls. -/
theorem onetraj_one_two {α : Type} [LinearOrderedField α] (L : Libm α) (S : Libsimu1 α)
    (q : data α) (hnp : q.npulse = 1) :
    (q.nseq = 1 → onetraj L S q = step L S { q with v1 := ⟨0, 0, q.mzeq⟩ } 0)
      ∧ (q.nseq = 2 →
          onetraj L S q = step L S (step L S { q with v1 := ⟨0, 0, q.mzeq⟩ } 0) 0) := by
  have hN : q.npulse.toNat = 1 := by rw [hnp]; rfl
  constructor
  · intro hseq
    have hcount : q.nseq.toNat * q.npulse.toNat = 0 + 1 := by rw [hN, hseq]; rfl
    rw [onetraj_flat, hcount, forLoop_succ, forLoop_zero]
    simp only [pulseAt, hN, Nat.mod_one]
  · intro hseq
    have hcount : q.nseq.toNat * q.npulse.toNat = 0 + 1 + 1 := by rw [hN, hseq]; rfl
    rw [onetraj_flat, hcount, forLoop_succ, forLoop_succ, forLoop_zero]
    simp only [pulseAt, hN, Nat.mod_one]

/-- Counterexample to C12 as stated: for the nutation example (`nu1 = 1/2` Hz, on
resonance, Rodrigues' rotation), the final z magnetization with `nseq = 2` is not
`<=` the one with `nseq = 1`. -/
theorem saturation_not_monotone :
    ¬ ((onetraj realLibm (rodrigues realLibm)
          { prepom1xy realLibm (mainCalc realLibm (exNutation : data ℝ)) with
            om0 := 0, nseq := 2 }).v1.z
        ≤ (onetraj realLibm (rodrigues realLibm)
          { prepom1xy realLibm (mainCalc realLibm (exNutation : data ℝ)) with
            om0 := 0, nseq := 1 }).v1.z) := by
  obtain ⟨hx, hy, htol, hsub, hone, hR1, hR2, hm, hnp⟩ := exNutation_prep
  have step1 : ∀ (n : Int) (t : data ℝ),
      t.params = ({ prepom1xy realLibm (mainCalc realLibm (exNutation : data ℝ)) with
          om0 := 0, nseq := n } : data ℝ).params →
      (step realLibm (rodrigues realLibm) t 0).v1
        = ⟨t.v1.x * Real.exp (-1), -t.v1.y * Real.exp (-1),
            1 + (-t.v1.z - 1) * Real.exp (-1)⟩ := by
    intro n t ht
    exact pi_pulse_step _ t ht rfl hx hy htol hsub hone hR1 hR2 hm
  have hz1 : (onetraj realLibm (rodrigues realLibm)
      { prepom1xy realLibm (mainCalc realLibm (exNutation : data ℝ)) with
        om0 := 0, nseq := 1 }).v1.z = 1 + (-1 - 1) * Real.exp (-1) := by
    rw [(onetraj_one_two realLibm (rodrigues realLibm)
      ({ prepom1xy realLibm (mainCalc realLibm (exNutation : data ℝ)) with
        om0 := 0, nseq := 1 } : data ℝ) hnp).1 rfl, step1 1 _ (by rfl)]
    simp [hm]
  have hz2 : (onetraj realLibm (rodrigues realLibm)
      { prepom1xy realLibm (mainCalc realLibm (exNutation : data ℝ)) with
        om0 := 0, nseq := 2 }).v1.z
      = 1 + (-(1 + (-1 - 1) * Real.exp (-1)) - 1) * Real.exp (-1) := by
    rw [(onetraj_one_two realLibm (rodrigues realLibm)
      ({ prepom1xy realLibm (mainCalc realLibm (exNutation : data ℝ)) with
        om0 := 0, nseq := 2 } : data ℝ) hnp).2 rfl,
      step1 2 _ (by rw [step_params]; rfl), step1 2 _ (by rfl)]
    simp [hm]
  rw [hz1, hz2, not_le]
  have he := Real.exp_pos (-1)
  nlinarith [mul_pos he he]

/-- C12, amended. For `0 < T2 <= 2 * T1`, `bigpulse >= 0`, `npulse >= 1`,
`nsubstep >= 1`, a nonzero `nu1`, `om0 = 0` and a rotation that keeps the norm for unit
axes, the final z magnetization of `onetraj` with `nseq = n` is, for every `n >= 0`,
at most the one with `nseq = 0`, which is `mzeq`: a presaturation of any length
never leaves more z magnetization than no presaturation at all. -/
theorem saturation_below_start (S : Libsimu1 ℝ) (hS : S.isometric) (p : data ℝ)
    (_hnu1 : p.nu1 ≠ 0) (hT2 : 0 < p.T2) (hT : p.T2 ≤ 2 * p.T1) (hbig : 0 ≤ p.bigpulse)
    (hnp : 1 ≤ p.npulse) (hsub : 1 ≤ p.nsubstep) (n : Nat) :
    (onetraj realLibm S
        { prepom1xy realLibm (mainCalc realLibm p) with om0 := 0, nseq := (n : Int) }).v1.z
      ≤ (onetraj realLibm S
        { prepom1xy realLibm (mainCalc realLibm p) with om0 := 0, nseq := 0 }).v1.z
      ∧ (onetraj realLibm S
        { prepom1xy realLibm (mainCalc realLibm p) with om0 := 0, nseq := 0 }).v1.z
          = (prepom1xy realLibm (mainCalc realLibm p)).mzeq := by
  have hreg := mainPrep_bounded p hT2 hT hbig hnp hsub
  have hm : (prepom1xy realLibm (mainCalc realLibm p)).mzeq = 1 := hreg.1
  have h0 : (onetraj realLibm S
      { prepom1xy realLibm (mainCalc realLibm p) with om0 := 0, nseq := 0 }).v1.z
        = (prepom1xy realLibm (mainCalc realLibm p)).mzeq := by
    have hcount : (0 : Int).toNat * (prepom1xy realLibm (mainCalc realLibm p)).npulse.toNat
        = 0 := Nat.zero_mul _
    rw [onetraj_flat]
    show (forLoop ((0 : Int).toNat * (prepom1xy realLibm (mainCalc realLibm p)).npulse.toNat)
      (pulseAt realLibm S (prepom1xy realLibm (mainCalc realLibm p)).npulse.toNat)
      ({ ({ prepom1xy realLibm (mainCalc realLibm p) with om0 := 0, nseq := 0 } : data ℝ) with
          v1 := ⟨0, 0, (prepom1xy realLibm (mainCalc realLibm p)).mzeq⟩ } : data ℝ)).v1.z = _
    rw [hcount, forLoop_zero]
  refine ⟨?_, h0⟩
  rw [h0, hm]
  have hb := onetraj_normSq_le S hS
    { prepom1xy realLibm (mainCalc realLibm p) with om0 := 0, nseq := (n : Int) } hreg
  simp only [Vec3.normSq] at hb
  have hz : (onetraj realLibm S
      { prepom1xy realLibm (mainCalc realLibm p) with
        om0 := 0, nseq := (n : Int) }).v1.z ^ 2 ≤ 1 := by
    have hx := sq_nonneg (onetraj realLibm S
      { prepom1xy realLibm (mainCalc realLibm p) with om0 := 0, nseq := (n : Int) }).v1.x
    have hy := sq_nonneg (onetraj realLibm S
      { prepom1xy realLibm (mainCalc realLibm p) with om0 := 0, nseq := (n : Int) }).v1.y
    linarith
  exact (abs_le.mp (sq_le_one_iff_abs_le_one _ |>.mp hz)).2

/-- Witness of the amended C12: the nutation example with two repetitions. -/
theorem saturation_below_start_witness :
    (onetraj realLibm (rodrigues realLibm)
        { prepom1xy realLibm (mainCalc realLibm (exNutation : data ℝ)) with
          om0 := 0, nseq := ((2 : Nat) : Int) }).v1.z
      ≤ (onetraj realLibm (rodrigues realLibm)
        { prepom1xy realLibm (mainCalc realLibm (exNutation : data ℝ)) with
          om0 := 0, nseq := 0 }).v1.z :=
  (saturation_below_start (rodrigues realLibm) rodrigues_isometric exNutation
    (by norm_num [exNutation, data.zero]) (by norm_num [exNutation, data.zero])
    (by norm_num [exNutation, data.zero]) (by norm_num [exNutation, data.zero])
    (by decide) (by decide) 2).1

/-! ## Splitting the values string -/

theorem NL_ne_NUL : NL ≠ NUL := by decide

theorem set_length_append {β : Type} (pre : List β) (a x : β) (post : List β) :
    (pre ++ a :: post).set pre.length x = pre ++ x :: post := by
  induction pre with
  | nil => rfl
  | cons b pre ih => simp [List.set, ih]

theorem countLoop_value (v rest : List Char) (count : Int) (hv : cleanValue v) :
    countLoop (v ++ NL :: rest) count = countLoop rest (count + 1) := by
  induction v with
  | nil => simp [countLoop, NL_ne_NUL]
  | cons c v ih =>
    have hc := hv c (List.mem_cons_self c v)
    have hv' : cleanValue v := fun d hd => hv d (List.mem_cons_of_mem c hd)
    simp [countLoop, hc.1, hc.2, ih hv']

theorem countLoop_joinLines (vals : List (List Char)) (count : Int)
    (hclean : ∀ v ∈ vals, cleanValue v) :
    countLoop (joinLines vals) count = count + vals.length := by
  induction vals generalizing count with
  | nil => simp [joinLines, countLoop]
  | cons v vs ih =>
    rw [joinLines, countLoop_value v _ count (hclean v (List.mem_cons_self v vs)),
      ih (count + 1) (fun w hw => hclean w (List.mem_cons_of_mem v hw))]
    simp only [List.length_cons]
    push_cast
    ring

/-- One value and its newline in the loop of `splitvalues`: the newline is overwritten,
cell `i` receives `start`, and the next value starts after it. -/
theorem splitLoop_value (count : Int) (v rest : List Char) (p start : Nat) (i : Int)
    (pv : List (Option Nat)) (done : List Char) (hv : cleanValue v) (hi : i < count) :
    splitLoop count (v ++ NL :: rest) p start i pv done
      = splitLoop count rest (p + v.length + 1) (p + v.length + 1) (i + 1)
          (pv.set i.toNat (some start)) (done ++ v ++ [NUL]) := by
  induction v generalizing p done with
  | nil => simp [splitLoop, NL_ne_NUL, hi]
  | cons c v ih =>
    have hc := hv c (List.mem_cons_self c v)
    have hv' : cleanValue v := fun d hd => hv d (List.mem_cons_of_mem c hd)
    have e : p + (c :: v).length + 1 = p + 1 + v.length + 1 := by
      simp only [List.length_cons]; omega
    rw [e]
    simp [splitLoop, hc.1, hc.2, hi, ih (p + 1) (done ++ [c]) hv']

/-- The loop of `splitvalues` over a whole list of values, when the cells `i`, `i+1`, ...
are still indeterminate: they receive the offsets of the values. -/
theorem splitLoop_joinLines (count : Int) (junk : Option Nat) (vals : List (List Char))
    (hclean : ∀ v ∈ vals, cleanValue v) (pre post : List (Option Nat)) (p : Nat)
    (done : List Char) (hcount : (pre.length : Int) + vals.length ≤ count) :
    splitLoop count (joinLines vals) p p pre.length
        (pre ++ List.replicate vals.length junk ++ post) done
      = ⟨pre ++ (offsets p vals).map some ++ post, done ++ joinNul vals⟩ := by
  induction vals generalizing pre p done with
  | nil => simp [joinLines, joinNul, offsets, splitLoop]
  | cons v vs ih =>
    have hi : (pre.length : Int) < count := by
      simp only [List.length_cons] at hcount
      push_cast at hcount
      omega
    rw [joinLines, splitLoop_value count v _ p p _ _ done
      (hclean v (List.mem_cons_self v vs)) hi]
    have hset : (pre ++ List.replicate (v :: vs).length junk ++ post).set
          (pre.length : Int).toNat (some p)
        = (pre ++ [some p]) ++ List.replicate vs.length junk ++ post := by
      simp only [List.length_cons, List.replicate_succ, Int.toNat_natCast, List.append_assoc,
        List.cons_append, List.nil_append]
      exact set_length_append pre junk (some p) _
    have hlen : ((pre.length : Int) + 1) = ((pre ++ [some p]).length : Int) := by
      simp
    rw [hset, hlen, ih (fun w hw => hclean w (List.mem_cons_of_mem v hw)) (pre ++ [some p])
      (p + v.length + 1) (done ++ v ++ [NUL])
      (by simp only [List.length_cons, List.length_append, List.length_nil] at hcount ⊢
          push_cast at hcount ⊢
          omega)]
    simp [offsets, joinNul]

/-- The array and the block built by `splitvalues` from the values string of a list of
clean values. -/
theorem splitvalues_joinLines (junk : Option Nat) (vals : List (List Char))
    (hclean : ∀ v ∈ vals, cleanValue v) :
    splitvalues junk (joinLines vals) vals.length
      = ⟨(offsets 0 vals).map some ++ [none, some 0], joinNul vals⟩ := by
  have h1 : (List.replicate ((vals.length : Int) + 2).toNat junk)
      = List.replicate vals.length junk ++ [junk, junk] := by
    have : ((vals.length : Int) + 2).toNat = vals.length + 2 := by omega
    rw [this, List.replicate_add]
    rfl
  have h2 : (List.replicate vals.length junk ++ [junk, junk]).set
        (vals.length : Int).toNat none
      = List.replicate vals.length junk ++ [none, junk] := by
    have := set_length_append (List.replicate vals.length junk) junk none [junk]
    rw [List.length_replicate] at this
    rw [Int.toNat_natCast]
    exact this
  have h3 : (List.replicate vals.length junk ++ [none, junk]).set
        ((vals.length : Int) + 1).toNat (some 0)
      = List.replicate vals.length junk ++ [none, some 0] := by
    have e : ((vals.length : Int) + 1).toNat = vals.length + 1 := by omega
    rw [e]
    simp
  unfold splitvalues
  simp only [h1, h2, h3]
  have := splitLoop_joinLines (vals.length : Int) junk vals hclean [] [none, some 0] 0 []
    (by simp)
  simpa using this

theorem takeWhile_value (v rest : List Char) (hv : cleanValue v) :
    (v ++ NUL :: rest).takeWhile (fun c => c != NUL) = v := by
  induction v with
  | nil => simp [List.takeWhile]
  | cons c v ih =>
    have hc := hv c (List.mem_cons_self c v)
    have hv' : cleanValue v := fun d hd => hv d (List.mem_cons_of_mem c hd)
    rw [List.cons_append, List.takeWhile_cons, if_pos (by simpa using hc.2), ih hv']

/-- The strings at the offsets of the values in the split block are the values. -/
theorem cstr_offsets (vals : List (List Char)) (hclean : ∀ v ∈ vals, cleanValue v)
    (pre : List Char) :
    (offsets pre.length vals).map (cstr (pre ++ joinNul vals)) = vals := by
  induction vals generalizing pre with
  | nil => rfl
  | cons v vs ih =>
    have hv := hclean v (List.mem_cons_self v vs)
    have hhead : cstr (pre ++ joinNul (v :: vs)) pre.length = v := by
      simp only [cstr, joinNul, List.drop_left' rfl]
      exact takeWhile_value v _ hv
    have htail := ih (fun w hw => hclean w (List.mem_cons_of_mem v hw)) (pre ++ v ++ [NUL])
    have e1 : (pre ++ v ++ [NUL]).length = pre.length + v.length + 1 := by
      simp only [List.length_append, List.length_singleton]
    have e2 : pre ++ v ++ [NUL] ++ joinNul vs = pre ++ joinNul (v :: vs) := by
      simp [joinNul]
    rw [e1, e2] at htail
    simp only [offsets, List.map_cons, hhead, htail]

/-- C18. Round trip of the value splitter: for every list `vals` of strings without
newline and end-of-string character, on the concatenation of the values each followed by
a newline, `countvalues` returns the number of values, and `splitvalues` with that count
returns an array made of pointers to strings that are exactly the values, in order,
followed by `NULL` at index `length vals` (and by the address of the block). -/
theorem split_roundtrip (junk : Option Nat) (vals : List (List Char))
    (hclean : ∀ v ∈ vals, cleanValue v) :
    countvalues (joinLines vals) = vals.length
      ∧ (∃ offs : List Nat,
          (splitvalues junk (joinLines vals) (countvalues (joinLines vals))).pvalues
              = offs.map some ++ [none, some 0]
            ∧ offs.map (cstr
                (splitvalues junk (joinLines vals) (countvalues (joinLines vals))).buf)
              = vals)
      ∧ (splitvalues junk (joinLines vals) (countvalues (joinLines vals))).pvalues[
          vals.length]? = some none := by
  have hcount : countvalues (joinLines vals) = vals.length := by
    rw [countvalues, countLoop_joinLines vals 0 hclean, zero_add]
  have hoff := cstr_offsets vals hclean []
  simp only [List.length_nil, List.nil_append] at hoff
  have hlen : (offsets 0 vals).length = vals.length := by
    have := congrArg List.length hoff
    simpa using this
  rw [hcount, splitvalues_joinLines junk vals hclean]
  refine ⟨rfl, ⟨offsets 0 vals, rfl, hoff⟩, ?_⟩
  show ((offsets 0 vals).map some ++ [none, some 0])[vals.length]? = some none
  rw [List.getElem?_append_right (by simp [hlen])]
  simp [hlen]

/-- Witness of C18: the two values `2` and `1.5`. -/
theorem split_roundtrip_witness :
    countvalues (joinLines [[Char.ofNat 50], [Char.ofNat 49, Char.ofNat 46, Char.ofNat 53]])
      = ([[Char.ofNat 50], [Char.ofNat 49, Char.ofNat 46, Char.ofNat 53]] :
          List (List Char)).length :=
  (split_roundtrip none [[Char.ofNat 50], [Char.ofNat 49, Char.ofNat 46, Char.ofNat 53]]
    (by decide)).1

/-! ## Reading the values one by one -/

/-- The state in which `getvaluesarray` leaves the value list of a list of clean values:
all the values are still to be read. -/
theorem getvaluesarray_remaining (junk : Option Nat) (vals : List (List Char))
    (hclean : ∀ v ∈ vals, cleanValue v) :
    Remaining (getvaluesarray junk (joinLines vals)) vals
      ∧ (getvaluesarray junk (joinLines vals)).index = 0 := by
  have hcount : countvalues (joinLines vals) = vals.length := by
    rw [countvalues, countLoop_joinLines vals 0 hclean, zero_add]
  have hoff := cstr_offsets vals hclean []
  simp only [List.length_nil, List.nil_append] at hoff
  refine ⟨⟨(offsets 0 vals).map some ++ [none, some 0], offsets 0 vals, ?_, ?_, ?_⟩, rfl⟩
  · simp only [getvaluesarray, hcount, splitvalues_joinLines junk vals hclean]
  · simp only [getvaluesarray, List.drop_zero]
  · simp only [getvaluesarray, hcount, splitvalues_joinLines junk vals hclean]
    exact hoff

/-- A call of `getvalue` when a value is left: it returns a pointer to that value and
moves `index` to the next cell. -/
theorem getvalue_cons (s : XState) (v : List Char) (vs : List (List Char))
    (h : Remaining s (v :: vs)) :
    ∃ off, getvalue s = (some off, { s with index := s.index + 1 })
      ∧ cstr s.buf off = v
      ∧ Remaining { s with index := s.index + 1 } vs := by
  obtain ⟨arr, offs, harr, hdrop, hstr⟩ := h
  cases offs with
  | nil => simp at hstr
  | cons off offs =>
    simp only [List.map_cons, List.cons.injEq] at hstr
    have hget : arr.getD s.index none = some off := by
      have h0 := List.getElem?_drop arr s.index 0
      rw [hdrop] at h0
      simp only [List.map_cons, List.cons_append, List.getElem?_cons_zero,
        Nat.add_zero] at h0
      rw [List.getD_eq_getElem?_getD, ← h0]
      rfl
    refine ⟨off, ?_, hstr.1, ⟨arr, offs, harr, ?_, hstr.2⟩⟩
    · simp only [getvalue, harr, hget]
    · show arr.drop (s.index + 1) = _
      rw [← List.tail_drop, hdrop]
      rfl

/-- A call of `getvalue` when no value is left: it returns `NULL`, frees the blocks and
sets the caller's variable to `NULL`. -/
theorem getvalue_nil (s : XState) (h : Remaining s []) :
    getvalue s = (none, { buf := [], valuesarray := none, index := s.index + 1 }) := by
  obtain ⟨arr, offs, harr, hdrop, hstr⟩ := h
  have hoffs : offs = [] := by simpa using hstr
  subst hoffs
  have hget : arr.getD s.index none = none := by
    have h0 := List.getElem?_drop arr s.index 0
    rw [hdrop] at h0
    simp only [List.map_nil, List.nil_append, List.getElem?_cons_zero, Nat.add_zero] at h0
    rw [List.getD_eq_getElem?_getD, ← h0]
    rfl
  simp only [getvalue, harr, hget]

/-- A call of `getvalue` when the caller's variable is `NULL`: it returns `NULL` and
changes nothing. -/
theorem getvalue_null (s : XState) (h : s.valuesarray = none) : getvalue s = (none, s) := by
  simp only [getvalue, h]

/-- The loop of `freevaluesarray` ends with the caller's variable set to `NULL` as soon
as the bound covers the cells left. -/
theorem freeLoop_null (n : Nat) (s : XState) (arr : List (Option Nat))
    (harr : s.valuesarray = some arr) (hn : arr.length - s.index + 1 ≤ n) :
    (freeLoop n s).valuesarray = none := by
  induction n generalizing s with
  | zero => omega
  | succ n ih =>
    cases hv : arr.getD s.index none with
    | none =>
      simp only [freeLoop, getvalue, harr, hv]
    | some k =>
      have hlt : s.index < arr.length := by
        by_contra hge
        rw [List.getD_eq_getElem?_getD, List.getElem?_eq_none (by omega)] at hv
        simp at hv
      have hg : getvalue s = (some k, { s with index := s.index + 1 }) := by
        simp only [getvalue, harr, hv]
      have hstep : freeLoop (n + 1) s = freeLoop n { s with index := s.index + 1 } := by
        simp only [freeLoop, hg]
      rw [hstep]
      have hn' : arr.length - (s.index + 1) + 1 ≤ n := by omega
      exact ih { s with index := s.index + 1 } harr hn'

/-- Function `freevaluesarray` always leaves the caller's variable `NULL`. -/
theorem freevaluesarray_null (s : XState) : (freevaluesarray s).valuesarray = none := by
  cases harr : s.valuesarray with
  | none => simp only [freevaluesarray, harr]
  | some arr =>
    simp only [freevaluesarray, harr]
    exact freeLoop_null _ s arr harr (Nat.le_refl _)

/-- After `k` calls of `getvalue` on the list of values `vals`, the values from number
`k` on are still to be read, and the block is untouched. -/
theorem afterCalls_remaining (s : XState) (vals : List (List Char)) (h : Remaining s vals)
    (k : Nat) (hk : k ≤ vals.length) :
    Remaining (afterCalls s k) (vals.drop k) ∧ (afterCalls s k).buf = s.buf := by
  induction k with
  | zero => exact ⟨h, rfl⟩
  | succ k ih =>
    obtain ⟨hr, hb⟩ := ih (Nat.le_of_succ_le hk)
    have hlt : k < vals.length := hk
    rw [List.drop_eq_getElem_cons hlt] at hr
    obtain ⟨off, hget, -, hr'⟩ := getvalue_cons _ _ _ hr
    have hs : afterCalls s (k + 1) = (getvalue (afterCalls s k)).2 :=
      Function.iterate_succ_apply' _ k s
    rw [hs, hget]
    exact ⟨hr', hb⟩

/-- Once the caller's variable is `NULL`, further calls of `getvalue` change nothing. -/
theorem afterCalls_null (s : XState) (h : s.valuesarray = none) (k : Nat) :
    afterCalls s k = s := by
  induction k with
  | zero => rfl
  | succ k ih =>
    have hs : afterCalls s (k + 1) = (getvalue (afterCalls s k)).2 :=
      Function.iterate_succ_apply' _ k s
    rw [hs, ih, getvalue_null s h]

/-- C19. For the array of the `n` values `vals` produced by `getvaluesarray` at the start
of the program: call number `k + 1` of `getvalue` (`k < n`) returns a pointer to value
number `k`; call `n + 1` returns `NULL`, releases the blocks and sets the caller's
variable to `NULL`; every later call returns `NULL` and changes nothing; and
`freevaluesarray`, called after any number of calls, leaves the caller's variable
`NULL`. -/
theorem getvalue_sequence (junk : Option Nat) (vals : List (List Char))
    (hclean : ∀ v ∈ vals, cleanValue v) :
    (∀ k (hk : k < vals.length),
        ∃ off, (getvalue (afterCalls (getvaluesarray junk (joinLines vals)) k)).1 = some off
          ∧ cstr (afterCalls (getvaluesarray junk (joinLines vals)) k).buf off = vals[k])
      ∧ (getvalue (afterCalls (getvaluesarray junk (joinLines vals)) vals.length)).1 = none
      ∧ (afterCalls (getvaluesarray junk (joinLines vals)) (vals.length + 1)).valuesarray
          = none
      ∧ (afterCalls (getvaluesarray junk (joinLines vals)) (vals.length + 1)).buf = []
      ∧ (∀ j, vals.length < j →
          getvalue (afterCalls (getvaluesarray junk (joinLines vals)) j)
            = (none, afterCalls (getvaluesarray junk (joinLines vals)) j))
      ∧ (∀ j, (freevaluesarray
          (afterCalls (getvaluesarray junk (joinLines vals)) j)).valuesarray = none) := by
  obtain ⟨hrem, -⟩ := getvaluesarray_remaining junk vals hclean
  have hlast := (afterCalls_remaining _ vals hrem vals.length (Nat.le_refl _)).1
  rw [List.drop_length] at hlast
  have hend : afterCalls (getvaluesarray junk (joinLines vals)) (vals.length + 1)
      = { buf := [], valuesarray := none,
          index := (afterCalls (getvaluesarray junk (joinLines vals)) vals.length).index
            + 1 } := by
    have hs : afterCalls (getvaluesarray junk (joinLines vals)) (vals.length + 1)
        = (getvalue (afterCalls (getvaluesarray junk (joinLines vals)) vals.length)).2 :=
      Function.iterate_succ_apply' _ _ _
    rw [hs, getvalue_nil _ hlast]
  refine ⟨?_, ?_, ?_, ?_, ?_, ?_⟩
  · intro k hk
    have hr := (afterCalls_remaining _ vals hrem k (Nat.le_of_lt hk)).1
    rw [List.drop_eq_getElem_cons hk] at hr
    obtain ⟨off, hget, hstr, -⟩ := getvalue_cons _ _ _ hr
    exact ⟨off, by rw [hget], hstr⟩
  · rw [getvalue_nil _ hlast]
  · rw [hend]
  · rw [hend]
  · intro j hj
    obtain ⟨d, rfl⟩ : ∃ d, j = vals.length + 1 + d := ⟨j - (vals.length + 1), by omega⟩
    have hsplit : afterCalls (getvaluesarray junk (joinLines vals)) (vals.length + 1 + d)
        = afterCalls (afterCalls (getvaluesarray junk (joinLines vals)) (vals.length + 1))
            d := by
      simp only [afterCalls]
      rw [Nat.add_comm, Function.iterate_add_apply]
    have hnull : (afterCalls (getvaluesarray junk (joinLines vals))
        (vals.length + 1)).valuesarray = none := by rw [hend]
    rw [hsplit, afterCalls_null _ hnull d]
    exact getvalue_null _ hnull
  · intro j
    exact freevaluesarray_null _

/-- Witness of C19: with the two values `2` and `1.5`, the second call returns a pointer
to `1.5`. -/
theorem getvalue_sequence_witness :
    ∃ off, (getvalue (afterCalls (getvaluesarray none
        (joinLines [[Char.ofNat 50], [Char.ofNat 49, Char.ofNat 46, Char.ofNat 53]])) 1)).1
          = some off
      ∧ cstr (afterCalls (getvaluesarray none
        (joinLines [[Char.ofNat 50], [Char.ofNat 49, Char.ofNat 46, Char.ofNat 53]])) 1).buf
          off = [Char.ofNat 49, Char.ofNat 46, Char.ofNat 53] :=
  (getvalue_sequence none [[Char.ofNat 50], [Char.ofNat 49, Char.ofNat 46, Char.ofNat 53]]
    (by decide)).1 1 (by decide)

/-! ## Parsing the values -/

section ParseGeneric

variable {α : Type}

/-- Function `getintvalue` on a value that `sscanf` converts. -/
theorem getintvalue_ok (C : Libc α) (ji : Int) (s : XState) (v : List Char)
    (vs : List (List Char)) (x : Int) (h : Remaining s (v :: vs))
    (hx : C.scanInt v = .ok x) :
    ∃ s', getintvalue C ji s = .ret x s' ∧ Remaining s' vs := by
  obtain ⟨off, hget, hstr, hr⟩ := getvalue_cons s v vs h
  refine ⟨{ s with index := s.index + 1 }, ?_, hr⟩
  have hstr' : cstr ({ s with index := s.index + 1 } : XState).buf off = v := hstr
  simp only [getintvalue, hget, hstr', hx]

/-- Function `getdoublevalue` on a value that `sscanf` converts. -/
theorem getdoublevalue_ok (C : Libc α) (jd : α) (s : XState) (v : List Char)
    (vs : List (List Char)) (x : α) (h : Remaining s (v :: vs))
    (hx : C.scanDouble v = .ok x) :
    ∃ s', getdoublevalue C jd s = .ret x s' ∧ Remaining s' vs := by
  obtain ⟨off, hget, hstr, hr⟩ := getvalue_cons s v vs h
  refine ⟨{ s with index := s.index + 1 }, ?_, hr⟩
  have hstr' : cstr ({ s with index := s.index + 1 } : XState).buf off = v := hstr
  simp only [getdoublevalue, hget, hstr', hx]

/-- Functions `getintvalue` and `getdoublevalue` on a value on which `sscanf` returns
`EOF`: no `exit`, the indeterminate value of the local variable is returned. -/
theorem getvalue_eof_returns (C : Libc α) (ji : Int) (jd : α) (s : XState) (v : List Char)
    (vs : List (List Char)) (h : Remaining s (v :: vs)) :
    (C.scanInt v = .eof → getintvalue C ji s = .ret ji { s with index := s.index + 1 })
      ∧ (C.scanDouble v = .eof →
          getdoublevalue C jd s = .ret jd { s with index := s.index + 1 }) := by
  obtain ⟨off, hget, hstr, -⟩ := getvalue_cons s v vs h
  have hstr' : cstr ({ s with index := s.index + 1 } : XState).buf off = v := hstr
  constructor
  · intro hx
    simp only [getintvalue, hget, hstr', hx]
  · intro hx
    simp only [getdoublevalue, hget, hstr', hx]

/-- The loop reading the modulation frequencies, when every value is converted. -/
theorem readShifts_ok (C : Libc α) (jd : α) (strs : List (List Char)) (xs : List α)
    (rest : List (List Char))
    (hxs : List.Forall₂ (fun str x => C.scanDouble str = .ok x) strs xs) (s : XState)
    (h : Remaining s (strs ++ rest)) :
    ∃ s', readShifts C jd strs.length s = .ret xs s' ∧ Remaining s' rest := by
  induction hxs generalizing s with
  | nil => exact ⟨s, rfl, h⟩
  | cons hx _ ih =>
    obtain ⟨s1, e1, r1⟩ := getdoublevalue_ok C jd s _ _ _ h hx
    obtain ⟨s2, e2, r2⟩ := ih s1 r1
    exact ⟨s2, by simp only [List.length_cons, readShifts, e1, Outcome.bind, e2], r2⟩

end ParseGeneric

/-- Evaluation for C16: on a value made of a single tab, `sscanf` returns `EOF`, and
`getintvalue` and `getdoublevalue` return the indeterminate value (here 7) of their local
variable instead of calling `exit(1)`; when no value is left, `sscanf` is called on
`NULL`. -/
theorem blank_value_no_exit :
    stdScanInt [Char.ofNat 9] = .eof
      ∧ getintvalue (stdLibc : Libc ℝ) 7 (getvaluesarray none (joinLines [[Char.ofNat 9]]))
        = .ret 7 ⟨[Char.ofNat 9, NUL], some [some 0, none, some 0], 1⟩
      ∧ getdoublevalue (stdLibc : Libc ℝ) 7
          (getvaluesarray none (joinLines [[Char.ofNat 9]]))
        = .ret 7 ⟨[Char.ofNat 9, NUL], some [some 0, none, some 0], 1⟩
      ∧ getintvalue (stdLibc : Libc ℝ) 7 (getvaluesarray none (joinLines [])) = .undef := by
  refine ⟨by decide, ?_, ?_, ?_⟩
  · obtain ⟨hrem, -⟩ := getvaluesarray_remaining none [[Char.ofNat 9]] (by decide)
    have h := (getvalue_eof_returns (stdLibc : Libc ℝ) 7 7 _ _ _ hrem).1 (by decide)
    rw [h]
    rfl
  · obtain ⟨hrem, -⟩ := getvaluesarray_remaining none [[Char.ofNat 9]] (by decide)
    have h := (getvalue_eof_returns (stdLibc : Libc ℝ) 7 7 _ _ _ hrem).2
      (show (stdScanDouble [Char.ofNat 9] : ScanResult ℝ) = .eof from rfl)
    rw [h]
    rfl
  · obtain ⟨hrem, -⟩ := getvaluesarray_remaining none [] (by decide)
    simp only [getintvalue, getvalue_nil _ hrem]

/-! ## The version check and the order of the input values -/

/-- C15. For every values string whose first value is converted by `sscanf` to an
integer different from 2, `main` ends by `exit(1)` with nothing printed, whatever the
other values are (none of them is stored), the value list being released.  When the
first value is 2 and the other values are converted, they are stored in the order `T1`,
`T2`, `nnu0`, `nu0min`, `nu0max`, `nshift`, the `nshift` shifts, `d1`, `bigpulse`,
`npulse`, `nsubstep`, `nu1`, and `main` prints the profile of that record and
returns 0. -/
theorem main_version_gate {α : Type} [LinearOrderedField α] (C : Libc α) (L : Libm α)
    (S : Libsimu1 α) (jp : Option Nat) (ji : Int) (jd : α) (d : data α) :
    (∀ (v0 : List Char) (rest : List (List Char)) (x : Int),
        (∀ v ∈ v0 :: rest, cleanValue v) → C.scanInt v0 = .ok x → x ≠ 2 →
        ∃ s, main C L S jp ji jd d (joinLines (v0 :: rest)) = ([], .exit 1 s)
          ∧ s.valuesarray = none)
      ∧ (∀ (a0 a1 a2 a3 a4 a5 a6 : List Char) (strs : List (List Char))
          (b1 b2 b3 b4 b5 : List Char) (T1 T2 nu0min nu0max d1 bigpulse nu1 : α)
          (nnu0 npulse nsubstep : Int) (shifts : List α),
        (∀ v ∈ a0 :: a1 :: a2 :: a3 :: a4 :: a5 :: a6 :: (strs ++ [b1, b2, b3, b4, b5]),
          cleanValue v) →
        C.scanInt a0 = .ok 2 → C.scanDouble a1 = .ok T1 → C.scanDouble a2 = .ok T2 →
        C.scanInt a3 = .ok nnu0 → C.scanDouble a4 = .ok nu0min →
        C.scanDouble a5 = .ok nu0max → C.scanInt a6 = .ok (strs.length : Int) →
        List.Forall₂ (fun str x => C.scanDouble str = .ok x) strs shifts →
        C.scanDouble b1 = .ok d1 → C.scanDouble b2 = .ok bigpulse →
        C.scanInt b3 = .ok npulse → C.scanInt b4 = .ok nsubstep →
        C.scanDouble b5 = .ok nu1 →
        ∃ s, main C L S jp ji jd d
            (joinLines (a0 :: a1 :: a2 :: a3 :: a4 :: a5 :: a6
              :: (strs ++ [b1, b2, b3, b4, b5])))
          = (mainSim L S
              { d with
                T1 := T1, T2 := T2, nnu0 := nnu0, nu0min := nu0min, nu0max := nu0max,
                nshift := (strs.length : Int), shifts := shifts, d1 := d1,
                bigpulse := bigpulse, npulse := npulse, nsubstep := nsubstep, nu1 := nu1 },
              .ret 0 s)
          ∧ s.valuesarray = none) := by
  constructor
  · intro v0 rest x hclean hx hne
    obtain ⟨hrem, -⟩ := getvaluesarray_remaining jp (v0 :: rest) hclean
    obtain ⟨s1, e1, -⟩ := getintvalue_ok C ji _ _ _ _ hrem hx
    refine ⟨freevaluesarray s1, ?_, freevaluesarray_null s1⟩
    simp only [main, mainRead, e1, Outcome.bind, if_pos hne]
  · intro a0 a1 a2 a3 a4 a5 a6 strs b1 b2 b3 b4 b5 T1 T2 nu0min nu0max d1 bigpulse nu1
      nnu0 npulse nsubstep shifts hclean h0 h1 h2 h3 h4 h5 h6 hsh g1 g2 g3 g4 g5
    obtain ⟨hrem, -⟩ := getvaluesarray_remaining jp _ hclean
    obtain ⟨s1, e1, r1⟩ := getintvalue_ok C ji _ _ _ _ hrem h0
    obtain ⟨s2, e2, r2⟩ := getdoublevalue_ok C jd _ _ _ _ r1 h1
    obtain ⟨s3, e3, r3⟩ := getdoublevalue_ok C jd _ _ _ _ r2 h2
    obtain ⟨s4, e4, r4⟩ := getintvalue_ok C ji _ _ _ _ r3 h3
    obtain ⟨s5, e5, r5⟩ := getdoublevalue_ok C jd _ _ _ _ r4 h4
    obtain ⟨s6, e6, r6⟩ := getdoublevalue_ok C jd _ _ _ _ r5 h5
    obtain ⟨s7, e7, r7⟩ := getintvalue_ok C ji _ _ _ _ r6 h6
    obtain ⟨s8, e8, r8⟩ := readShifts_ok C jd strs shifts _ hsh s7 r7
    obtain ⟨s9, e9, r9⟩ := getdoublevalue_ok C jd _ _ _ _ r8 g1
    obtain ⟨s10, e10, r10⟩ := getdoublevalue_ok C jd _ _ _ _ r9 g2
    obtain ⟨s11, e11, r11⟩ := getintvalue_ok C ji _ _ _ _ r10 g3
    obtain ⟨s12, e12, r12⟩ := getintvalue_ok C ji _ _ _ _ r11 g4
    obtain ⟨s13, e13, -⟩ := getdoublevalue_ok C jd _ _ _ _ r12 g5
    refine ⟨freevaluesarray s13, ?_, freevaluesarray_null s13⟩
    have hne : ¬ ((2 : Int) ≠ 2) := by decide
    simp only [main, mainRead, e1, Outcome.bind, if_neg hne, e2, e3, e4, e5, e6, e7,
      Int.toNat_natCast, e8, e9, e10, e11, e12, e13]

/-- Witness of C15: the values string `3`, with the small `sscanf`, ends `main` by
`exit(1)` with nothing printed. -/
theorem main_version_gate_witness :
    ∃ s, main (stdLibc : Libc ℝ) realLibm (rodrigues realLibm) none 0 0 data.zero
        (joinLines [[Char.ofNat 51]]) = ([], .exit 1 s)
      ∧ s.valuesarray = none :=
  (main_version_gate (stdLibc : Libc ℝ) realLibm (rodrigues realLibm) none 0 0
    data.zero).1 [Char.ofNat 51] [] 3 (by decide) (by decide) (by decide)

/-! ## Peak amplitude of the shaped pulse -/

/-- The sum of unit vectors `(cos a, sin a)` over a list of angles has norm at most the
length of the list. -/
theorem sum_cos_sin_sq_le (l : List ℝ) :
    (l.map Real.cos).sum ^ 2 + (l.map Real.sin).sum ^ 2 ≤ (l.length : ℝ) ^ 2 := by
  induction l with
  | nil => simp
  | cons a l ih =>
    have hn : (0 : ℝ) ≤ (l.length : ℝ) := Nat.cast_nonneg _
    have hu : Real.cos a ^ 2 + Real.sin a ^ 2 = 1 := Real.cos_sq_add_sin_sq a
    have hcs : ((l.map Real.cos).sum * Real.cos a + (l.map Real.sin).sum * Real.sin a) ^ 2
        ≤ (l.length : ℝ) ^ 2 := by
      nlinarith [sq_nonneg ((l.map Real.cos).sum * Real.sin a
        - (l.map Real.sin).sum * Real.cos a)]
    have hdot : (l.map Real.cos).sum * Real.cos a + (l.map Real.sin).sum * Real.sin a
        ≤ (l.length : ℝ) := by
      by_contra hlt
      rw [not_le] at hlt
      nlinarith
    simp only [List.map_cons, List.sum_cons, List.length_cons]
    push_cast
    nlinarith

/-- C21. For a shift table of length `nshift >= 1`, every sample built by `prepom1xy`
satisfies `sqrt(om1x[i]^2 + om1y[i]^2) <= |om1|` for every `i` in `[0, npulse)`; and when
`npulse >= 1`, the first sample is `om1x[0] = om1`, `om1y[0] = 0`, where the bound is an
equality. -/
theorem peak_amplitude (p : data ℝ) (_hlen : (p.shifts.length : Int) = p.nshift)
    (hshift : 1 ≤ p.nshift) :
    (∀ i : Nat, (i : Int) < p.npulse →
        Real.sqrt ((load (prepom1xy realLibm p).heap (prepom1xy realLibm p).om1x i) ^ 2
            + (load (prepom1xy realLibm p).heap (prepom1xy realLibm p).om1y i) ^ 2)
          ≤ |p.om1|)
      ∧ (1 ≤ p.npulse →
          load (prepom1xy realLibm p).heap (prepom1xy realLibm p).om1x 0 = p.om1
            ∧ load (prepom1xy realLibm p).heap (prepom1xy realLibm p).om1y 0 = 0
            ∧ Real.sqrt ((load (prepom1xy realLibm p).heap (prepom1xy realLibm p).om1x 0) ^ 2
                + (load (prepom1xy realLibm p).heap (prepom1xy realLibm p).om1y 0) ^ 2)
              = |p.om1|) := by
  obtain ⟨h, hP, hl, hc, hs⟩ := prepom1xy_eq realLibm p
  have hcast : ((p.nshift.toNat : Nat) : ℝ) = (p.nshift : ℝ) := by
    have : ((p.nshift.toNat : Nat) : Int) = p.nshift := Int.toNat_of_nonneg (by omega)
    exact_mod_cast congrArg (fun z : Int => (z : ℝ)) this
  have hn : (0 : ℝ) < (p.nshift : ℝ) := by
    have : (0 : Int) < p.nshift := by omega
    exact_mod_cast this
  rw [hP]
  constructor
  · intro i hi
    have hi' : i < p.npulse.toNat := by omega
    show Real.sqrt ((load h 0 i) ^ 2 + (load h p.npulse.toNat i) ^ 2) ≤ |p.om1|
    rw [hc i hi', hs i hi', ← Real.sqrt_sq_eq_abs]
    apply Real.sqrt_le_sqrt
    have hsum := sum_cos_sin_sq_le
      ((List.range p.nshift.toNat).map (fun k : Nat => (i : ℝ) * dphiOf realLibm p k))
    simp only [List.map_map, List.length_map, List.length_range, hcast] at hsum
    have hcos : (List.map (Real.cos ∘ fun k : Nat => (i : ℝ) * dphiOf realLibm p k)
          (List.range p.nshift.toNat))
        = (List.range p.nshift.toNat).map
          (fun k => realLibm.cos ((i : ℝ) * dphiOf realLibm p k)) := rfl
    have hsin : (List.map (Real.sin ∘ fun k : Nat => (i : ℝ) * dphiOf realLibm p k)
          (List.range p.nshift.toNat))
        = (List.range p.nshift.toNat).map
          (fun k => realLibm.sin ((i : ℝ) * dphiOf realLibm p k)) := rfl
    rw [hcos, hsin] at hsum
    have hq : (p.om1 / (p.nshift : ℝ)) ^ 2 * (p.nshift : ℝ) ^ 2 = p.om1 ^ 2 := by
      field_simp
    have hq0 : 0 ≤ (p.om1 / (p.nshift : ℝ)) ^ 2 := sq_nonneg _
    nlinarith [mul_le_mul_of_nonneg_left hsum hq0]
  · intro hpulse
    have h0 : 0 < p.npulse.toNat := by omega
    have hx : load h 0 0 = p.om1 := by
      rw [hc 0 h0]
      simp only [Nat.cast_zero, zero_mul]
      have : ((List.range p.nshift.toNat).map (fun _ : Nat => realLibm.cos 0)).sum
          = (p.nshift : ℝ) := by
        simp [realLibm, hcast]
      rw [this]
      field_simp
    have hy : load h p.npulse.toNat 0 = 0 := by
      rw [hs 0 h0]
      simp only [Nat.cast_zero, zero_mul]
      have : ((List.range p.nshift.toNat).map (fun _ : Nat => realLibm.sin 0)).sum = 0 := by
        simp [realLibm]
      rw [this, zero_mul]
    refine ⟨hx, hy, ?_⟩
    show Real.sqrt ((load h 0 0) ^ 2 + (load h p.npulse.toNat 0) ^ 2) = |p.om1|
    rw [hx, hy]
    simp [Real.sqrt_sq_eq_abs]

/-- Witness of C21: the one-pulse example shape has first sample `(om1, 0)`. -/
theorem peak_amplitude_witness :
    load (prepom1xy realLibm (exShape : data ℝ)).heap
        (prepom1xy realLibm (exShape : data ℝ)).om1x 0 = (exShape : data ℝ).om1
      ∧ load (prepom1xy realLibm (exShape : data ℝ)).heap
        (prepom1xy realLibm (exShape : data ℝ)).om1y 0 = 0
      ∧ Real.sqrt ((load (prepom1xy realLibm (exShape : data ℝ)).heap
            (prepom1xy realLibm (exShape : data ℝ)).om1x 0) ^ 2
          + (load (prepom1xy realLibm (exShape : data ℝ)).heap
            (prepom1xy realLibm (exShape : data ℝ)).om1y 0) ^ 2)
        = |(exShape : data ℝ).om1| :=
  (peak_amplitude exShape rfl (by decide)).2 (by decide)

end Presat
